import Mathlib

/-!
Shallow embedding of the evidence verification/extraction engine of the
`patent_rag` repository (main source: `src/llm/llm_extract_evidence.py`,
with the alternate retry variant from `src/llm/llm_ground_passage.py`).

Strings are modelled as `List Char`.  Python's `re` whitespace class `\s`
(for `str` patterns) and `str.strip()` both use the Unicode whitespace
characters listed in `pyWhitespaceChars` below.
-/

namespace PatentRag

/-- Unicode whitespace characters recognised by Python's `\s` regex class
and by `str.strip()` / `str.isspace()`. -/
def pyWhitespaceChars : List Char :=
  [' ', '\t', '\n', '\r', '\x0b', '\x0c',
   '\x1c', '\x1d', '\x1e', '\x1f', '\x85', '\xa0',
   '\u1680', '\u2000', '\u2001', '\u2002', '\u2003', '\u2004', '\u2005',
   '\u2006', '\u2007', '\u2008', '\u2009', '\u200a',
   '\u2028', '\u2029', '\u202f', '\u205f', '\u3000']

def isPyWhitespace (c : Char) : Bool := pyWhitespaceChars.contains c

/-- One pass of `re.sub(r'\s+', ' ', text)`: every maximal run of
whitespace characters is replaced by a single ASCII space. -/
def collapseWhitespace : List Char → List Char
  | [] => []
  | [c] => if isPyWhitespace c then [' '] else [c]
  | c :: d :: rest =>
      if isPyWhitespace c && isPyWhitespace d then
        collapseWhitespace (d :: rest)
      else
        (if isPyWhitespace c then ' ' else c) :: collapseWhitespace (d :: rest)

/-- `str.strip()` applied after the collapse: the only whitespace left by
`collapseWhitespace` is the ASCII space, so stripping removes leading and
trailing spaces. -/
def stripSpaces (s : List Char) : List Char :=
  ((s.dropWhile (· = ' ')).reverse.dropWhile (· = ' ')).reverse

/-- `EnhancedPatentEvidenceMiner._normalize_whitespace`:
`re.sub(r'\s+', ' ', text).strip()`. -/
def normalizeWhitespace (s : List Char) : List Char :=
  stripSpaces (collapseWhitespace s)

/-- Index of the first occurrence of `pat` in `s` (Python `str.find`,
returning `none` for `-1`); `firstOccur [] s = some 0` just as
`s.find("") == 0` in Python. -/
def firstOccur (pat : List Char) : List Char → Option Nat
  | [] => if pat.isEmpty then some 0 else none
  | c :: rest =>
      if pat.isPrefixOf (c :: rest) then some 0
      else (firstOccur pat rest).map (· + 1)

/-- Python's substring test `pat in s`. -/
def strContains (s pat : List Char) : Bool := (firstOccur pat s).isSome

/-- `PatentSegment` dataclass. -/
structure PatentSegment where
  id : List Char
  text : List Char
  sectionName : List Char
  index : Nat
deriving DecidableEq, Repr

def dummySegment : PatentSegment := ⟨[], [], [], 0⟩

/-- `VerificationStatus` enum. -/
inductive VerificationStatus where
  | verified
  | partialMatch
  | notFound
  | contextMismatch
deriving DecidableEq, Repr

/-- The sentence-boundary characters of
`EnhancedPatentEvidenceMiner._is_context_valid`. -/
def boundaryChars : List Char := [' ', '。', '、', '「', '」', '\n', '\t']

/-- `EnhancedPatentEvidenceMiner._is_context_valid`: locate the first
occurrence of the raw quote in the raw segment text; the characters
immediately before and after it (an ASCII space standing in at the two
ends of the string) must both be boundary characters. -/
def isContextValid (quote fullText : List Char) : Bool :=
  match firstOccur quote fullText with
  | none => false
  | some pos =>
      let beforeChar := if pos > 0 then fullText.getD (pos - 1) ' ' else ' '
      let afterChar :=
        if pos + quote.length < fullText.length then
          fullText.getD (pos + quote.length) ' '
        else ' '
      boundaryChars.contains beforeChar && boundaryChars.contains afterChar

/-- `EnhancedPatentEvidenceMiner._fuzzy_match` with the default threshold
0.85.  Character sets are modelled as deduplicated lists; the float
comparison `overlap / len(quote_chars) >= 0.85` is modelled by the exact
rational inequality `20 * overlap ≥ 17 * len`, which agrees with the IEEE
double comparison for every feasible set size. -/
def fuzzyMatch (quote text : List Char) : Bool :=
  let quoteChars := ((normalizeWhitespace quote).filter (fun c => c ≠ ' ')).dedup
  let textChars := ((normalizeWhitespace text).filter (fun c => c ≠ ' ')).dedup
  if quoteChars.isEmpty then false
  else
    let overlap := (quoteChars.filter (fun c => textChars.contains c)).length
    20 * overlap ≥ 17 * quoteChars.length

/-- Result quadruple of `_verify_quote_enhanced`:
(status, source id, context before, context after). -/
abbrev VerifyResult := VerificationStatus × List Char × List Char × List Char

/-- `all_segments[i-1].text if i > 0 else ""`. -/
def contextBefore (allSegments : List PatentSegment) (i : Nat) : List Char :=
  if i > 0 then (allSegments.getD (i - 1) dummySegment).text else []

/-- `all_segments[i+1].text if i < len(all_segments)-1 else ""`. -/
def contextAfter (allSegments : List PatentSegment) (i : Nat) : List Char :=
  if i < allSegments.length - 1 then (allSegments.getD (i + 1) dummySegment).text
  else []

/-- First loop of `_verify_quote_enhanced` (exact match, then
boundary-checked substring match), scanning the suffix `segs` of
`allSegments` that starts at position `i`. -/
def verifyScan (qn quote : List Char) (allSegments : List PatentSegment) :
    Nat → List PatentSegment → Option VerifyResult
  | _, [] => none
  | i, seg :: rest =>
      let tn := normalizeWhitespace seg.text
      if qn = tn then
        some (.verified, seg.id, contextBefore allSegments i,
              contextAfter allSegments i)
      else if strContains tn qn then
        if isContextValid quote seg.text then
          some (.verified, seg.id, contextBefore allSegments i,
                contextAfter allSegments i)
        else
          some (.contextMismatch, seg.id, [], [])
      else verifyScan qn quote allSegments (i + 1) rest

/-- Second loop of `_verify_quote_enhanced`: fuzzy matching. -/
def fuzzyScan (quote : List Char) : List PatentSegment → Option VerifyResult
  | [] => none
  | seg :: rest =>
      if fuzzyMatch quote seg.text then some (.partialMatch, seg.id, [], [])
      else fuzzyScan quote rest

/-- `EnhancedPatentEvidenceMiner._verify_quote_enhanced`. -/
def verifyQuoteEnhanced (quote : List Char) (allSegments : List PatentSegment) :
    VerifyResult :=
  let quoteNormalized := normalizeWhitespace quote
  match verifyScan quoteNormalized quote allSegments 0 allSegments with
  | some r => r
  | none =>
      match fuzzyScan quote allSegments with
      | some r => r
      | none => (.notFound, ['N', '/', 'A'], [], [])

/-! ### Python value model (documents and parsed JSON) -/

/-- Python values as they appear in this code: strings, ints, booleans,
lists, dicts (association lists in insertion order) and `None`. -/
inductive PyValue where
  | str : List Char → PyValue
  | int : Int → PyValue
  | bool : Bool → PyValue
  | list : List PyValue → PyValue
  | dict : List (List Char × PyValue) → PyValue
  | none : PyValue

/-- Exceptions that the modelled code can raise. -/
inductive PyErr where
  | attributeError
  | typeError
  | jsonDecodeError
deriving DecidableEq, Repr

/-- Python truthiness of a value (`if result:`). -/
def PyValue.truthy : PyValue → Bool
  | .str s => !s.isEmpty
  | .int n => n != 0
  | .bool b => b
  | .list l => !l.isEmpty
  | .dict l => !l.isEmpty
  | .none => false

/-- First-match association-list lookup (Python dict keys are unique). -/
def lookupKey (entries : List (List Char × PyValue)) (k : List Char) :
    Option PyValue :=
  match entries with
  | [] => Option.none
  | (k', v) :: rest => if k' = k then some v else lookupKey rest k

/-- `v.get(key, default)`; raises `AttributeError` when `v` is not a dict. -/
def pyGet (v : PyValue) (key : List Char) (default : PyValue) :
    Except PyErr PyValue :=
  match v with
  | .dict entries => .ok ((lookupKey entries key).getD default)
  | _ => .error .attributeError

/-- Truthiness of `text.strip()`: true iff the string contains a
non-whitespace character. -/
def stripTruthy (s : List Char) : Bool := s.any (fun c => !isPyWhitespace c)

/-! ### Segmenter (`_prepare_document_enhanced`, `_extract_paragraph_number`) -/

/-- The Unicode decimal-digit (category Nd) ranges, as `(first codepoint,
length)` pairs: exactly the characters matched by Python's `\d` on `str`
patterns, including e.g. the full-width digits `０`-`９` (U+FF10-FF19)
used in Japanese paragraph markers. -/
def pyDigitRanges : List (Nat × Nat) :=
  [(0x30, 10), (0x660, 10), (0x6f0, 10), (0x7c0, 10), (0x966, 10),
   (0x9e6, 10), (0xa66, 10), (0xae6, 10), (0xb66, 10), (0xbe6, 10),
   (0xc66, 10), (0xce6, 10), (0xd66, 10), (0xde6, 10), (0xe50, 10),
   (0xed0, 10), (0xf20, 10), (0x1040, 10), (0x1090, 10), (0x17e0, 10),
   (0x1810, 10), (0x1946, 10), (0x19d0, 10), (0x1a80, 10), (0x1a90, 10),
   (0x1b50, 10), (0x1bb0, 10), (0x1c40, 10), (0x1c50, 10), (0xa620, 10),
   (0xa8d0, 10), (0xa900, 10), (0xa9d0, 10), (0xa9f0, 10), (0xaa50, 10),
   (0xabf0, 10), (0xff10, 10), (0x104a0, 10), (0x10d30, 10), (0x11066, 10),
   (0x110f0, 10), (0x11136, 10), (0x111d0, 10), (0x112f0, 10), (0x11450, 10),
   (0x114d0, 10), (0x11650, 10), (0x116c0, 10), (0x11730, 10), (0x118e0, 10),
   (0x11950, 10), (0x11c50, 10), (0x11d50, 10), (0x11da0, 10), (0x16a60, 10),
   (0x16ac0, 10), (0x16b50, 10), (0x1d7ce, 50), (0x1e140, 10), (0x1e2f0, 10),
   (0x1e950, 10), (0x1fbf0, 10)]

/-- Python's `\d` for `str` patterns: any Unicode decimal digit, not just
ASCII `0`-`9`. -/
def isPyDigit (c : Char) : Bool :=
  pyDigitRanges.any (fun r => decide (r.1 ≤ c.toNat) && decide (c.toNat < r.1 + r.2))

/-- `re.search` for a pattern `openC`, four digits, `closeC`: scan start
positions left to right and return the first captured digit group. -/
def matchBracketPattern (openC closeC : Char) : List Char → Option (List Char)
  | [] => Option.none
  | c :: rest =>
      if c = openC then
        match rest with
        | d1 :: d2 :: d3 :: d4 :: c2 :: _ =>
            if isPyDigit d1 && isPyDigit d2 && isPyDigit d3 && isPyDigit d4 &&
                c2 = closeC then
              some [d1, d2, d3, d4]
            else matchBracketPattern openC closeC rest
        | _ => matchBracketPattern openC closeC rest
      else matchBracketPattern openC closeC rest

/-- `re.search` for `¶` followed by four digits (no closing character). -/
def matchPilcrowPattern : List Char → Option (List Char)
  | [] => Option.none
  | c :: rest =>
      if c = '¶' then
        match rest with
        | d1 :: d2 :: d3 :: d4 :: _ =>
            if isPyDigit d1 && isPyDigit d2 && isPyDigit d3 && isPyDigit d4 then
              some [d1, d2, d3, d4]
            else matchPilcrowPattern rest
        | _ => matchPilcrowPattern rest
      else matchPilcrowPattern rest

/-- `EnhancedPatentEvidenceMiner._extract_paragraph_number`: try the three
patterns in order and wrap the first captured group as `[NNNN]`. -/
def extractParagraphNumber (text : List Char) : Option (List Char) :=
  match matchBracketPattern '[' ']' text with
  | some ds => some ('[' :: ds ++ [']'])
  | Option.none =>
      match matchBracketPattern '【' '】' text with
      | some ds => some ('[' :: ds ++ [']'])
      | Option.none => (matchPilcrowPattern text).map (fun ds => '[' :: ds ++ [']'])

/-- The character of one decimal digit. -/
def digitChar : Nat → Char
  | 0 => '0' | 1 => '1' | 2 => '2' | 3 => '3' | 4 => '4'
  | 5 => '5' | 6 => '6' | 7 => '7' | 8 => '8' | 9 => '9'
  | _ => '*'

/-- Decimal digits of `n`, most significant first; the structural fuel
`n + 1` always suffices. -/
def natDecDigits : Nat → Nat → List Char
  | 0, _ => []
  | fuel + 1, n =>
      if n < 10 then [digitChar n]
      else natDecDigits fuel (n / 10) ++ [digitChar (n % 10)]

def natToDec (n : Nat) : List Char := natDecDigits (n + 1) n

/-- Decimal digits of `n`, zero-padded to at least four characters
(Python `f"{idx:04d}"` for non-negative `idx`). -/
def pad4 (n : Nat) : List Char :=
  List.replicate (4 - (natToDec n).length) '0' ++ natToDec n

/-- Synthesized id `f"[{section_name}_{idx:04d}]"`. -/
def synthListId (sectionName : List Char) (idx : Nat) : List Char :=
  '[' :: (sectionName ++ '_' :: pad4 idx) ++ [']']

/-- Id `f"[{section_name}]"` used for a string-valued section. -/
def synthStrId (sectionName : List Char) : List Char :=
  '[' :: sectionName ++ [']']

/-- Loop body for a list-valued section: `for idx, text in enumerate(content)`,
keeping only truthy strings. -/
def listSegments (sectionName : List Char) : Nat → List PyValue → List PatentSegment
  | _, [] => []
  | idx, v :: rest =>
      (match v with
       | .str s =>
           if stripTruthy s then
             [⟨(extractParagraphNumber s).getD (synthListId sectionName idx),
               s, sectionName, idx⟩]
           else []
       | _ => []) ++ listSegments sectionName (idx + 1) rest

/-- Segments contributed by one `(section_name, content)` entry of the
description dict; non-list non-string contents are skipped. -/
def entrySegments (sectionName : List Char) : PyValue → List PatentSegment
  | .list items => listSegments sectionName 0 items
  | .str s =>
      if stripTruthy s then [⟨synthStrId sectionName, s, sectionName, 0⟩] else []
  | _ => []

/-- The `full_text_lines` entry for a segment: `f"{para_num} {text}"`.
(The source appends a line exactly when it appends a segment, so the line
list is the image of the segment list under this map.) -/
def segmentLine (seg : PatentSegment) : List Char := seg.id ++ ' ' :: seg.text

/-- `EnhancedPatentEvidenceMiner._prepare_document_enhanced`: build the
ordered segment list and the newline-joined indexed text.  Raises
`AttributeError` (as the Python does on `desc.items()` / `.get`) when the
document or its `description` value is not a dict. -/
def prepareDocumentEnhanced (patentJson : PyValue) :
    Except PyErr (List Char × List PatentSegment) := do
  let desc ← pyGet patentJson ("description".data) (.dict [])
  match desc with
  | .dict entries =>
      let segments := (entries.map (fun e => entrySegments e.1 e.2)).flatten
      .ok (List.intercalate ['\n'] (segments.map segmentLine), segments)
  | _ => .error .attributeError

/-! ### JSON parsing (model of `json.loads`)

Strings accept the standard escapes (`\uXXXX` and float literals are not
modelled; every number is an integer); Python's duplicate-object-key rule
(last assignment wins, position of the first occurrence kept) is modelled
by `dictInsert`. -/

def jsonWs (c : Char) : Bool := c = ' ' || c = '\t' || c = '\n' || c = '\r'

/-- `d[k] = v` on a Python dict: replace in place if the key is present,
otherwise append. -/
def dictInsert (entries : List (List Char × PyValue)) (key : List Char)
    (v : PyValue) : List (List Char × PyValue) :=
  match entries with
  | [] => [(key, v)]
  | (k, w) :: rest =>
      if k = key then (k, v) :: rest else (k, w) :: dictInsert rest key v

/-- Parse the body of a JSON string after the opening quote; returns the
decoded characters and the remaining input. -/
def parseJsonStringBody : List Char → Except PyErr (List Char × List Char)
  | [] => .error .jsonDecodeError
  | '"' :: rest => .ok ([], rest)
  | '\\' :: rest =>
      match rest with
      | [] => .error .jsonDecodeError
      | e :: rest2 =>
          let escChar : Option Char :=
            if e = '"' then some '"'
            else if e = '\\' then some '\\'
            else if e = '/' then some '/'
            else if e = 'b' then some '\x08'
            else if e = 'f' then some '\x0c'
            else if e = 'n' then some '\n'
            else if e = 'r' then some '\r'
            else if e = 't' then some '\t'
            else Option.none
          match escChar with
          | some c => (parseJsonStringBody rest2).map (fun p => (c :: p.1, p.2))
          | Option.none => .error .jsonDecodeError
  | c :: rest => (parseJsonStringBody rest).map (fun p => (c :: p.1, p.2))

def digitsToNat (ds : List Char) : Nat :=
  ds.foldl (fun acc c => 10 * acc + (c.toNat - '0'.toNat)) 0

/-- Parse a JSON number (integers only; a fraction or exponent is a
modelling error, not used by any input considered here). -/
def parseJsonNumber (s : List Char) : Except PyErr (PyValue × List Char) :=
  let (negSign, s1) :=
    match s with
    | '-' :: rest => (true, rest)
    | _ => (false, s)
  let ds := s1.takeWhile Char.isDigit
  let rest := s1.dropWhile Char.isDigit
  if ds.isEmpty then .error .jsonDecodeError
  else if ds.head? = some '0' && ds.length > 1 then .error .jsonDecodeError
  else
    match rest with
    | '.' :: _ => .error .jsonDecodeError
    | 'e' :: _ => .error .jsonDecodeError
    | 'E' :: _ => .error .jsonDecodeError
    | _ =>
        let n : Int := Int.ofNat (digitsToNat ds)
        .ok (.int (if negSign then -n else n), rest)

/-- What the fuel-indexed JSON parser is currently parsing: a value, the
members of an object after its `{`, or the elements of an array after
its `[`. -/
inductive JsonTask where
  | value
  | objRest (acc : List (List Char × PyValue))
  | arrRest (acc : List PyValue)

/-- Recursive-descent JSON parser; `fuel` is structural and
`2 * length + 2` always suffices. -/
def parseJson : Nat → JsonTask → List Char → Except PyErr (PyValue × List Char)
  | 0, _, _ => .error .jsonDecodeError
  | fuel + 1, .value, s0 =>
      let s := s0.dropWhile jsonWs
      match s with
      | '\x7b' :: rest =>
          let r1 := rest.dropWhile jsonWs
          match r1 with
          | '\x7d' :: r => .ok (.dict [], r)
          | _ => parseJson fuel (.objRest []) r1
      | '[' :: rest =>
          let r1 := rest.dropWhile jsonWs
          match r1 with
          | ']' :: r => .ok (.list [], r)
          | _ => parseJson fuel (.arrRest []) r1
      | '"' :: rest => (parseJsonStringBody rest).map (fun p => (.str p.1, p.2))
      | 't' :: 'r' :: 'u' :: 'e' :: r => .ok (.bool true, r)
      | 'f' :: 'a' :: 'l' :: 's' :: 'e' :: r => .ok (.bool false, r)
      | 'n' :: 'u' :: 'l' :: 'l' :: r => .ok (.none, r)
      | _ => parseJsonNumber s
  | fuel + 1, .objRest acc, s0 =>
      let s := s0.dropWhile jsonWs
      match s with
      | '"' :: rest =>
          match parseJsonStringBody rest with
          | .error e => .error e
          | .ok (key, r1) =>
              match r1.dropWhile jsonWs with
              | ':' :: r3 =>
                  match parseJson fuel .value r3 with
                  | .error e => .error e
                  | .ok (v, r4) =>
                      match r4.dropWhile jsonWs with
                      | ',' :: r6 => parseJson fuel (.objRest (dictInsert acc key v)) r6
                      | '\x7d' :: r6 => .ok (.dict (dictInsert acc key v), r6)
                      | _ => .error .jsonDecodeError
              | _ => .error .jsonDecodeError
      | _ => .error .jsonDecodeError
  | fuel + 1, .arrRest acc, s0 =>
      match parseJson fuel .value s0 with
      | .error e => .error e
      | .ok (v, r1) =>
          match r1.dropWhile jsonWs with
          | ',' :: r3 => parseJson fuel (.arrRest (acc ++ [v])) r3
          | ']' :: r3 => .ok (.list (acc ++ [v]), r3)
          | _ => .error .jsonDecodeError

/-- `json.loads`: parse one value and require only whitespace after it. -/
def pyJsonLoads (s : List Char) : Except PyErr PyValue :=
  match parseJson (2 * s.length + 2) .value s with
  | .error e => .error e
  | .ok (v, rest) =>
      if (rest.dropWhile jsonWs).isEmpty then .ok v else .error .jsonDecodeError

/-! ### `JSONExtractor` strategy cascade -/

/-- Lazy tail of the code-block regex: having consumed `{...` (reversed in
`groupRev`), try each following `}` as the group end, accepting the first
one that is followed by optional whitespace and a closing fence. -/
def codeBlockScanEnd (groupRev : List Char) : List Char → Option (List Char)
  | [] => Option.none
  | c :: rest =>
      if c = '\x7d' then
        if ("```".data).isPrefixOf (rest.dropWhile isPyWhitespace) then
          some ((c :: groupRev).reverse)
        else codeBlockScanEnd (c :: groupRev) rest
      else codeBlockScanEnd (c :: groupRev) rest

/-- `re.search(r'```json\s*(\x7b.*?\x7d)\s*```', text, re.DOTALL)`:
try every start position left to right. -/
def codeBlockSearch : List Char → Option (List Char)
  | [] => Option.none
  | c :: rest =>
      if ("```json".data).isPrefixOf (c :: rest) then
        match ((c :: rest).drop 7).dropWhile isPyWhitespace with
        | '\x7b' :: afterBrace =>
            match codeBlockScanEnd ['\x7b'] afterBrace with
            | some group => some group
            | Option.none => codeBlockSearch rest
        | _ => codeBlockSearch rest
      else codeBlockSearch rest

/-- `JSONExtractor._extract_from_code_block`. -/
def extractFromCodeBlock (text : List Char) : Except PyErr (Option PyValue) :=
  match codeBlockSearch text with
  | some group => (pyJsonLoads group).map some
  | Option.none => .ok Option.none

/-- Index of the last occurrence of character `c` (Python `str.rfind`). -/
def lastOccurChar (c : Char) (s : List Char) : Option Nat :=
  (firstOccur [c] s.reverse).map (fun i => s.length - 1 - i)

/-- `JSONExtractor._extract_from_brackets`: slice from the first `{` to
the last `}` and parse it. -/
def extractFromBrackets (text : List Char) : Except PyErr (Option PyValue) :=
  match firstOccur ['\x7b'] text, lastOccurChar '\x7d' text with
  | some start, some stop =>
      if start < stop then
        (pyJsonLoads ((text.drop start).take (stop + 1 - start))).map some
      else .ok Option.none
  | _, _ => .ok Option.none

/-- Remainder of the input after the first closing `</thinking>` tag. -/
def findCloseThinking : List Char → Option (List Char)
  | [] => Option.none
  | c :: rest =>
      if ("</thinking>".data).isPrefixOf (c :: rest) then
        some ((c :: rest).drop 11)
      else findCloseThinking rest

/-- `re.sub(r'<thinking>.*?</thinking>', '', text, flags=re.DOTALL)`:
remove every (lazily matched) thinking region.  The fuel argument is
structural; the initial fuel `length` suffices because every recursive
call consumes at least one character. -/
def removeThinkingAux : Nat → List Char → List Char
  | 0, s => s
  | _ + 1, [] => []
  | fuel + 1, c :: rest =>
      if ("<thinking>".data).isPrefixOf (c :: rest) then
        match findCloseThinking ((c :: rest).drop 10) with
        | some rest2 => removeThinkingAux fuel rest2
        | Option.none => c :: removeThinkingAux fuel rest
      else c :: removeThinkingAux fuel rest

def removeThinking (s : List Char) : List Char := removeThinkingAux s.length s

/-- Scanner for the pattern `\x7b[^\x7b\x7d]*(?:\x7b[^\x7b\x7d]*\x7d[^\x7b\x7d]*)*\x7d`
from a fixed start: `inner` says whether we are inside a nested (depth-2)
brace group; a `{` at depth 2 kills the match at this start. -/
def braceScan (inner : Bool) (accRev : List Char) : List Char → Option (List Char)
  | [] => Option.none
  | c :: rest =>
      if c = '\x7d' then
        if inner then braceScan false (c :: accRev) rest
        else some ((c :: accRev).reverse)
      else if c = '\x7b' then
        if inner then Option.none else braceScan true (c :: accRev) rest
      else braceScan inner (c :: accRev) rest

/-- Leftmost match of the brace-balanced regex of `_extract_with_regex`. -/
def braceSearch : List Char → Option (List Char)
  | [] => Option.none
  | c :: rest =>
      if c = '\x7b' then
        match braceScan false [c] rest with
        | some g => some g
        | Option.none => braceSearch rest
      else braceSearch rest

/-- `JSONExtractor._extract_with_regex`. -/
def extractWithRegex (text : List Char) : Except PyErr (Option PyValue) :=
  match braceSearch (removeThinking text) with
  | some group => (pyJsonLoads group).map some
  | Option.none => .ok Option.none

/-- `JSONExtractor._direct_parse`. -/
def directParse (text : List Char) : Except PyErr (Option PyValue) :=
  (pyJsonLoads text).map some

/-- The four strategies of `JSONExtractor.extract_json_from_text`, in
their fixed order. -/
def extractStrategies : List (List Char → Except PyErr (Option PyValue)) :=
  [extractFromCodeBlock, extractFromBrackets, extractWithRegex, directParse]

/-- The `for strategy in strategies` loop: a raised exception or a falsy
result moves on to the next strategy; a truthy result is returned. -/
def runStrategies (t : List Char) :
    List (List Char → Except PyErr (Option PyValue)) → Option PyValue
  | [] => Option.none
  | strat :: rest =>
      match strat t with
      | .ok (some v) => if v.truthy then some v else runStrategies t rest
      | _ => runStrategies t rest

/-- `JSONExtractor.extract_json_from_text`. -/
def extractJsonFromText (t : List Char) : Option PyValue :=
  runStrategies t extractStrategies

/-! ### `ThinkingExtractor` -/

/-- `str.strip()`. -/
def pyStrip (s : List Char) : List Char :=
  ((s.dropWhile isPyWhitespace).reverse.dropWhile isPyWhitespace).reverse

/-- Lazy scan for the closing tag of `<thinking>(.*?)</thinking>`,
returning the captured group. -/
def thinkingScanEnd (accRev : List Char) : List Char → Option (List Char)
  | [] => Option.none
  | c :: rest =>
      if ("</thinking>".data).isPrefixOf (c :: rest) then some accRev.reverse
      else thinkingScanEnd (c :: accRev) rest

def extractThinkingSearch : List Char → Option (List Char)
  | [] => Option.none
  | c :: rest =>
      if ("<thinking>".data).isPrefixOf (c :: rest) then
        match thinkingScanEnd [] ((c :: rest).drop 10) with
        | some g => some g
        | Option.none => extractThinkingSearch rest
      else extractThinkingSearch rest

/-- `ThinkingExtractor.extract_thinking`. -/
def extractThinking (t : List Char) : List Char :=
  match extractThinkingSearch t with
  | some g => pyStrip g
  | Option.none => []

/-! ### Invocation layer

One outcome of `model.generate_content` per attempt: a returned response
(with its `.text`), a `google_exceptions.ResourceExhausted`, or any other
exception.  A behaviour `Nat → LlmOutcome` gives the outcome of the
`k`-th attempt.  `time.sleep` is a real-time effect outside the model. -/

inductive LlmOutcome where
  | response : List Char → LlmOutcome
  | resourceExhausted : LlmOutcome
  | otherError : LlmOutcome
deriving DecidableEq, Repr

/-- Default `max_retries` of `EnhancedPatentEvidenceMiner.__init__`. -/
def defaultMaxRetries : Nat := 3

/-- Loop of `EnhancedPatentEvidenceMiner._call_llm_with_retry`, together
with the number of `generate_content` calls made.  `remaining` is the
number of loop iterations left and `calls` the attempt index; every
exception is caught by the blanket `except Exception`, and a response
whose text is falsy is neither returned nor an exception, so the loop
just continues. -/
def callLlmAux (b : Nat → LlmOutcome) (maxRetries : Nat) :
    Nat → Nat → Option (List Char) × Nat
  | 0, calls => (Option.none, calls)
  | remaining + 1, calls =>
      match b calls with
      | .response t =>
          if t.isEmpty then callLlmAux b maxRetries remaining (calls + 1)
          else (some t, calls + 1)
      | _ =>
          if calls = maxRetries - 1 then (Option.none, calls + 1)
          else callLlmAux b maxRetries remaining (calls + 1)

/-- `EnhancedPatentEvidenceMiner._call_llm_with_retry`: result and number
of attempts actually made. -/
def callLlmWithRetry (b : Nat → LlmOutcome) (maxRetries : Nat) :
    Option (List Char) × Nat :=
  callLlmAux b maxRetries maxRetries 0

/-- Failures surfaced by `EvidenceExtractionSystem._generate_with_retry`. -/
inductive LlmFailure where
  | resourceExhausted
  | other
deriving DecidableEq, Repr

/-- Loop of `EvidenceExtractionSystem._generate_with_retry`
(`llm_ground_passage.py`): `ResourceExhausted` is retried (after a
`initial_wait * 4 ** attempt` sleep) while attempts remain, then
re-raised; any other exception is re-raised at once; a response is
returned as-is (`ok none` models the implicit `return None` when
`max_retries == 0`). -/
def generateWithRetryAux (b : Nat → LlmOutcome) (maxRetries : Nat) :
    Nat → Nat → Except LlmFailure (Option (List Char)) × Nat
  | 0, calls => (.ok Option.none, calls)
  | remaining + 1, calls =>
      match b calls with
      | .response t => (.ok (some t), calls + 1)
      | .resourceExhausted =>
          if calls < maxRetries - 1 then
            generateWithRetryAux b maxRetries remaining (calls + 1)
          else (.error .resourceExhausted, calls + 1)
      | .otherError => (.error .other, calls + 1)

/-- `EvidenceExtractionSystem._generate_with_retry` (default
`max_retries = 5`): result and number of attempts made. -/
def generateWithRetry (b : Nat → LlmOutcome) (maxRetries : Nat) :
    Except LlmFailure (Option (List Char)) × Nat :=
  generateWithRetryAux b maxRetries maxRetries 0

/-! ### `EnhancedPatentEvidenceMiner.run` -/

/-- `Citation` dataclass.  `source_paragraph` and `proves` keep whatever
Python value the model's JSON supplied. -/
structure Citation where
  quote : List Char
  sourceParagraph : PyValue
  characterCount : Int
  proves : PyValue
  contextBefore : List Char
  contextAfter : List Char
  isMinimal : Bool
  isCompleteSentence : Bool

/-- `EvidenceItem` dataclass (as serialised into `verified_items`). -/
structure EvidenceItemModel where
  claimScope : PyValue
  assertion : List Char
  citations : List Citation
  verificationStatus : VerificationStatus
  confidenceScore : PyValue
  thinkingProcess : List Char
  summary : List Char

/-- An element of `verified_items`: either a full evidence item or the
small `found: False` dict appended when the model reports no evidence. -/
inductive EvidenceEntry where
  | item : EvidenceItemModel → EvidenceEntry
  | noEvidence (claimScope : PyValue) (assertion : List Char) (reason : PyValue)

/-- Tags for the strings appended to `errors` during a run. -/
inductive RunError where
  | documentPreparationError
  | noReviewText
  | parseArgumentsFailed
  | jsonExtractArgumentsFailed
  | qualityWarningHighCount
  | evidenceCallFailed (assertion : List Char)
  | evidenceJsonFailed (assertion : List Char)

/-- `ExtractionResult` dataclass. -/
structure ExtractionResult where
  docNumber : PyValue
  totalAssertions : Nat
  verifiedCount : Nat
  partialCount : Nat
  notFoundCount : Nat
  evidenceItems : List EvidenceEntry
  errors : List RunError

/-- The aggregation of per-citation statuses in `run`:
`all == VERIFIED` / `any == VERIFIED` / otherwise. -/
def aggregateStatus (statuses : List VerificationStatus) : VerificationStatus :=
  if statuses.all (fun s => s = .verified) then .verified
  else if statuses.any (fun s => s = .verified) then .partialMatch
  else .notFound

/-- Which of the three run counters one assertion increments. -/
inductive Tally where
  | asVerified
  | asPartial
  | asNotFound
deriving DecidableEq, Repr

def Tally.v : Tally → Nat | .asVerified => 1 | _ => 0
def Tally.p : Tally → Nat | .asPartial => 1 | _ => 0
def Tally.n : Tally → Nat | .asNotFound => 1 | _ => 0

def statusTally : VerificationStatus → Tally
  | .verified => .asVerified
  | .partialMatch => .asPartial
  | _ => .asNotFound

/-- Python `len()`. -/
def pyLen : PyValue → Except PyErr Nat
  | .list l => .ok l.length
  | .str s => .ok s.length
  | .dict d => .ok d.length
  | _ => .error .typeError

/-- Python iteration (`for x in v`): lists yield elements, strings yield
one-character strings, dicts yield their keys. -/
def pyIter : PyValue → Except PyErr (List PyValue)
  | .list l => .ok l
  | .str s => .ok (s.map (fun c => PyValue.str [c]))
  | .dict d => .ok (d.map (fun e => PyValue.str e.1))
  | _ => .error .typeError

/-- `v[:k]` is only defined for sliceable values. -/
def sliceable : PyValue → Bool
  | .str _ => true
  | .list _ => true
  | _ => false

/-- The argument-display loop of `run` (`logger.info(f"... {assertion[:100]} ...")`,
`logger.debug(f"... {rationale[:80]} ...")`): it raises when an argument
is not a dict or an (assertion / truthy rationale) value is not
sliceable. -/
def validateDisplayArg (arg : PyValue) : Except PyErr Unit := do
  let assertion ← pyGet arg ("assertion".data) (.str [])
  let rationale ← pyGet arg ("rationale".data) (.str [])
  if !sliceable assertion then throw .typeError
  else if rationale.truthy && !sliceable rationale then throw .typeError
  else pure ()

/-- `f"{confidence:.2f}"` requires a numeric value (floats are not
modelled; a Python bool is an int). -/
def requireNumeric : PyValue → Except PyErr Unit
  | .int _ => .ok ()
  | .bool _ => .ok ()
  | _ => .error .typeError

/-- Build one `Citation` from an evidence dict, running
`_verify_quote_enhanced` on its quote. -/
def buildCitation (segments : List PatentSegment) (ev : PyValue) :
    Except PyErr Citation := do
  let quote0 ← pyGet ev ("quote".data) (.str [])
  let sourceId ← pyGet ev ("source_id".data) (.str [])
  match quote0 with
  | .str q => do
      let cc0 ← pyGet ev ("character_count".data) (.int (Int.ofNat q.length))
      let cc : Int ←
        match cc0 with
        | .int nn => pure nn
        | .bool b => pure (if b then (1 : Int) else 0)
        | _ => throw .typeError
      let proves ← pyGet ev ("proves".data) (.str [])
      match verifyQuoteEnhanced q segments with
      | (status, trueId, ctxB, ctxA) =>
          pure ⟨q, (if status = .verified then .str trueId else sourceId), cc,
                proves, ctxB, ctxA, decide (cc ≤ 100), true⟩
  | _ => throw .typeError

/-- One iteration of the per-assertion loop of `run`; `response` is what
`_call_llm_with_retry` returned for this assertion.  Yields the
`verified_items` entry (if any), the counter that is incremented, and the
`errors` entry (if any). -/
def processAssertion (segments : List PatentSegment) (arg : PyValue)
    (response : Option (List Char)) :
    Except PyErr (Option EvidenceEntry × Tally × Option RunError) := do
  let assertion0 ← pyGet arg ("assertion".data) (.str [])
  let claimScope ← pyGet arg ("claim_scope".data) (.str ("Unknown".data))
  match assertion0 with
  | .str a =>
      match response with
      | Option.none => .ok (Option.none, .asNotFound, some (.evidenceCallFailed a))
      | some t =>
          if t.isEmpty then
            .ok (Option.none, .asNotFound, some (.evidenceCallFailed a))
          else
            let thinking := extractThinking t
            match extractJsonFromText t with
            | Option.none => .ok (Option.none, .asNotFound, some (.evidenceJsonFailed a))
            | some result => do
                let found ← pyGet result ("found".data) .none
                if found.truthy then do
                  let evidenceList ← pyGet result ("evidence".data) (.list [])
                  if !evidenceList.truthy then
                    .ok (Option.none, .asNotFound, Option.none)
                  else
                    match evidenceList with
                    | .list evs => do
                        let citations ← evs.mapM (buildCitation segments)
                        let statuses := citations.map
                          (fun c => (verifyQuoteEnhanced c.quote segments).1)
                        let overall := aggregateStatus statuses
                        let qc ← pyGet result ("quality_check".data) (.dict [])
                        let conf ← pyGet qc ("confidence".data) (.int 0)
                        .ok (some (.item ⟨claimScope, a, citations, overall, conf,
                                          thinking, []⟩),
                             statusTally overall, Option.none)
                    | _ => throw .typeError
                else do
                  let reason ← pyGet result ("reason".data)
                    (.str ("No matching description in document".data))
                  .ok (some (.noEvidence claimScope a reason), .asNotFound, Option.none)
  | _ => throw .typeError

/-- The per-assertion loop of `run`: `llm i` is the result of the `i`-th
`_call_llm_with_retry` call of the run (call `0` parsed the arguments). -/
def processArgs (segments : List PatentSegment) (llm : Nat → Option (List Char)) :
    Nat → List PyValue →
    Except PyErr (List EvidenceEntry × Nat × Nat × Nat × List RunError)
  | _, [] => .ok ([], 0, 0, 0, [])
  | i, arg :: rest =>
      match processAssertion segments arg (llm i) with
      | .error e => .error e
      | .ok (entry?, t, err?) =>
          match processArgs segments llm (i + 1) rest with
          | .error e => .error e
          | .ok (items, v, p, n, errs) =>
              .ok (entry?.toList ++ items, t.v + v, t.p + p, t.n + n,
                   err?.toList ++ errs)

/-- Continuation of `run` once the document is segmented and the review
text selected. -/
def minerRunWithReview (patentJson : PyValue) (segments : List PatentSegment)
    (reviewText : PyValue) (llm : Nat → Option (List Char)) :
    Except PyErr ExtractionResult := do
  let docNum ← pyGet patentJson ("doc_number".data) (.str ("Unknown".data))
  if !reviewText.truthy then
    .ok ⟨docNum, 0, 0, 0, 0, [], [.noReviewText]⟩
  else
    match llm 0 with
    | Option.none => .ok ⟨docNum, 0, 0, 0, 0, [], [.parseArgumentsFailed]⟩
    | some t1 =>
        if t1.isEmpty then
          .ok ⟨docNum, 0, 0, 0, 0, [], [.parseArgumentsFailed]⟩
        else
          match extractJsonFromText t1 with
          | Option.none =>
              .ok ⟨docNum, 0, 0, 0, 0, [], [.jsonExtractArgumentsFailed]⟩
          | some argsData => do
              let arguments ← pyGet argsData ("arguments".data) (.list [])
              let originalCount ← pyLen arguments
              let confidence ← pyGet argsData ("confidence".data) (.int 0)
              requireNumeric confidence
              let qualityErrs :=
                if originalCount > 8 then [RunError.qualityWarningHighCount]
                else []
              let elems ← pyIter arguments
              let _ ← elems.mapM validateDisplayArg
              match processArgs segments llm 1 elems with
              | .error e => .error e
              | .ok (items, v, p, n, errs) =>
                  .ok ⟨docNum, originalCount, v, p, n, items,
                       qualityErrs ++ errs⟩

/-- `EnhancedPatentEvidenceMiner.run`, with `llm` giving the successive
results of `_call_llm_with_retry`.  `Except.error` models an uncaught
exception escaping `run`. -/
def minerRun (reviewJson patentJson : PyValue) (llm : Nat → Option (List Char)) :
    Except PyErr ExtractionResult :=
  match prepareDocumentEnhanced patentJson with
  | .error _ =>
      .ok ⟨.str ("ERROR".data), 0, 0, 0, 0, [], [.documentPreparationError]⟩
  | .ok (_docText, segments) => do
      let r1 ← pyGet reviewJson ("examiner_review".data) .none
      let reviewText ←
        if r1.truthy then pure r1
        else pyGet reviewJson ("final_decision".data) (.str [])
      minerRunWithReview patentJson segments reviewText llm

/-! ## Theorems -/

/-! ### C4: aggregation of citation outcomes -/

/-- C4: for every non-empty list of citation verification outcomes, the
aggregate of `run` is Verified iff every outcome is Verified, PartialMatch
iff at least one outcome is Verified and at least one is not, and NotFound
iff no outcome is Verified. -/
theorem aggregate_outcome_characterization (statuses : List VerificationStatus)
    (h : statuses ≠ []) :
    (aggregateStatus statuses = .verified ↔ ∀ s ∈ statuses, s = .verified) ∧
    (aggregateStatus statuses = .partialMatch ↔
      ((∃ s ∈ statuses, s = .verified) ∧ (∃ s ∈ statuses, s ≠ .verified))) ∧
    (aggregateStatus statuses = .notFound ↔ ¬ ∃ s ∈ statuses, s = .verified) := by
  have hall_iff : (statuses.all (fun s => s = VerificationStatus.verified) = true) ↔
      ∀ s ∈ statuses, s = VerificationStatus.verified := by
    simp [List.all_eq_true]
  have hany_iff : (statuses.any (fun s => s = VerificationStatus.verified) = true) ↔
      ∃ s ∈ statuses, s = VerificationStatus.verified := by
    simp [List.any_eq_true]
  unfold aggregateStatus
  by_cases hall : statuses.all (fun s => s = VerificationStatus.verified) = true
  · rw [if_pos hall]
    obtain ⟨s0, hs0⟩ := List.exists_mem_of_ne_nil statuses h
    have hallP := hall_iff.mp hall
    refine ⟨by simpa using hallP, ?_, ?_⟩
    · constructor
      · intro hbad
        exact absurd hbad (by simp)
      · rintro ⟨-, s, hs, hne⟩
        exact absurd (hallP s hs) hne
    · constructor
      · intro hbad
        exact absurd hbad (by simp)
      · intro hnone
        exact absurd ⟨s0, hs0, hallP s0 hs0⟩ hnone
  · rw [if_neg hall]
    have hnall : ¬ ∀ s ∈ statuses, s = VerificationStatus.verified := fun hx =>
      hall (hall_iff.mpr hx)
    push_neg at hnall
    obtain ⟨s1, hs1, hne1⟩ := hnall
    by_cases hany : statuses.any (fun s => s = VerificationStatus.verified) = true
    · rw [if_pos hany]
      have hanyP := hany_iff.mp hany
      refine ⟨?_, ?_, ?_⟩
      · constructor
        · intro hbad
          exact absurd hbad (by simp)
        · intro hx
          exact absurd (hx s1 hs1) hne1
      · exact ⟨fun _ => ⟨hanyP, ⟨s1, hs1, hne1⟩⟩, fun _ => rfl⟩
      · constructor
        · intro hbad
          exact absurd hbad (by simp)
        · intro hnone
          exact absurd hanyP hnone
    · rw [if_neg hany]
      have hnoneP : ¬ ∃ s ∈ statuses, s = VerificationStatus.verified := fun hx =>
        hany (hany_iff.mpr hx)
      refine ⟨?_, ?_, by simpa using hnoneP⟩
      · constructor
        · intro hbad
          exact absurd hbad (by simp)
        · intro hx
          exact absurd (hx s1 hs1) hne1
      · constructor
        · intro hbad
          exact absurd hbad (by simp)
        · rintro ⟨hex, -⟩
          exact absurd hex hnoneP

/-- Witness for C4 at the three concrete examples of the claim. -/
theorem aggregate_outcome_witness :
    ([VerificationStatus.verified, VerificationStatus.notFound] ≠ [] ∧
      aggregateStatus [.verified, .notFound] = .partialMatch) ∧
    aggregateStatus [.verified, .verified] = .verified ∧
    aggregateStatus [.notFound] = .notFound := by
  refine ⟨⟨by decide, ?_⟩, by decide, by decide⟩
  exact ((aggregate_outcome_characterization [.verified, .notFound]
    (by decide)).2.1).mpr
    ⟨⟨.verified, by decide, rfl⟩, ⟨.notFound, by decide, by decide⟩⟩

/-! ### C7: retry loop of `_call_llm_with_retry` -/

/-- A transient failure in the sense of the spec: a rate-limit error or an
empty response. -/
def transientOutcome (o : LlmOutcome) : Prop :=
  o = .resourceExhausted ∨ o = .response []

theorem callLlmAux_success (b : Nat → LlmOutcome) (maxR n : Nat) (t : List Char)
    (hn : 1 ≤ n) (hmax : n ≤ maxR)
    (htrans : ∀ k, k < n - 1 → transientOutcome (b k))
    (hsucc : b (n - 1) = .response t) (ht : t ≠ []) :
    ∀ r c, c + r = maxR → c < n → callLlmAux b maxR r c = (some t, n) := by
  intro r
  induction r with
  | zero => intro c hc hcn; omega
  | succ r ih =>
      intro c hc hcn
      by_cases hce : c = n - 1
      · rcases t with - | ⟨a, t2⟩
        · exact absurd rfl ht
        · rw [callLlmAux, hce, hsucc]
          simp only [List.isEmpty_cons, Bool.false_eq_true, if_false, Prod.mk.injEq]
          exact ⟨trivial, by omega⟩
      · have hlt : c < n - 1 := by omega
        rcases htrans c hlt with hre | hemp
        · rw [callLlmAux, hre]
          rw [if_neg (by omega : ¬ c = maxR - 1)]
          exact ih (c + 1) (by omega) (by omega)
        · rw [callLlmAux, hemp]
          simp only [List.isEmpty_nil, if_true]
          exact ih (c + 1) (by omega) (by omega)

theorem callLlmAux_exhaust (b : Nat → LlmOutcome) (maxR : Nat)
    (htrans : ∀ k, k < maxR → transientOutcome (b k)) :
    ∀ r c, c + r = maxR → callLlmAux b maxR r c = (Option.none, maxR) := by
  intro r
  induction r with
  | zero =>
      intro c hc
      rw [callLlmAux]
      simp only [Prod.mk.injEq]
      exact ⟨trivial, by omega⟩
  | succ r ih =>
      intro c hc
      rcases htrans c (by omega) with hre | hemp
      · rw [callLlmAux, hre]
        by_cases hce : c = maxR - 1
        · rw [if_pos hce]
          simp only [Prod.mk.injEq]
          exact ⟨trivial, by omega⟩
        · rw [if_neg hce]
          exact ih (c + 1) (by omega)
      · rw [callLlmAux, hemp]
        simp only [List.isEmpty_nil, if_true]
        exact ih (c + 1) (by omega)

/-- C7: if the first `n - 1` attempts fail transiently (rate limit or
empty response) and the `n`-th returns non-empty text with `n ≤
max_retries`, `_call_llm_with_retry` returns that text after exactly `n`
attempts; if every attempt fails transiently it returns `None` after
exactly `max_retries` attempts; the configurable `max_retries` defaults
to 3. -/
theorem retry_contract :
    (∀ (b : Nat → LlmOutcome) (maxR n : Nat) (t : List Char),
      1 ≤ n → n ≤ maxR → (∀ k, k < n - 1 → transientOutcome (b k)) →
      b (n - 1) = .response t → t ≠ [] →
      callLlmWithRetry b maxR = (some t, n)) ∧
    (∀ (b : Nat → LlmOutcome) (maxR : Nat),
      (∀ k, k < maxR → transientOutcome (b k)) →
      callLlmWithRetry b maxR = (Option.none, maxR)) ∧
    defaultMaxRetries = 3 := by
  refine ⟨?_, ?_, rfl⟩
  · intro b maxR n t hn hmax htrans hsucc ht
    exact callLlmAux_success b maxR n t hn hmax htrans hsucc ht maxR 0 (by omega) (by omega)
  · intro b maxR htrans
    exact callLlmAux_exhaust b maxR htrans maxR 0 (by omega)

def retryWitnessBehavior : Nat → LlmOutcome
  | 0 => .resourceExhausted
  | 1 => .response []
  | _ => .response ("ok".data)

/-- Witness for C7: a rate-limit failure, an empty response, then a
success, under the default `max_retries = 3`. -/
theorem retry_contract_witness :
    callLlmWithRetry retryWitnessBehavior defaultMaxRetries = (some ("ok".data), 3) ∧
    callLlmWithRetry (fun _ => LlmOutcome.resourceExhausted) defaultMaxRetries =
      (Option.none, 3) := by
  constructor
  · exact retry_contract.1 retryWitnessBehavior 3 3 ("ok".data) (by omega) (by omega)
      (by
        intro k hk
        interval_cases k
        · exact Or.inl rfl
        · exact Or.inr rfl)
      rfl (by decide)
  · exact retry_contract.2.1 (fun _ => .resourceExhausted) 3 (fun k _ => Or.inl rfl)

/-! ### C8: which failures are retried -/

theorem generateWithRetryAux_rePrefix (b : Nat → LlmOutcome) (maxR : Nat)
    (hall : ∀ k, k < maxR → b k = .resourceExhausted) :
    ∀ r c, c + r = maxR → 1 ≤ r →
    generateWithRetryAux b maxR r c = (.error .resourceExhausted, maxR) := by
  intro r
  induction r with
  | zero => intro c hc h1; omega
  | succ r ih =>
      intro c hc h1
      rw [generateWithRetryAux, hall c (by omega)]
      by_cases hce : c < maxR - 1
      · rw [if_pos hce]
        exact ih (c + 1) (by omega) (by omega)
      · rw [if_neg hce]
        simp only [Prod.mk.injEq]
        exact ⟨trivial, by omega⟩

theorem generateWithRetryAux_reThen (b : Nat → LlmOutcome) (maxR n : Nat)
    (hn : n < maxR) (hre : ∀ k, k < n → b k = .resourceExhausted)
    (hnotre : b n ≠ .resourceExhausted) :
    ∀ r c, c + r = maxR → c ≤ n →
    generateWithRetryAux b maxR r c =
      (match b n with
       | .response t => (.ok (some t), n + 1)
       | _ => (.error .other, n + 1)) := by
  intro r
  induction r with
  | zero => intro c hc hcn; omega
  | succ r ih =>
      intro c hc hcn
      by_cases hce : c = n
      · subst hce
        rcases hb : b c with t | - | -
        · rw [generateWithRetryAux, hb]
        · exact absurd hb hnotre
        · rw [generateWithRetryAux, hb]
      · rw [generateWithRetryAux, hre c (by omega)]
        rw [if_pos (by omega : c < maxR - 1)]
        exact ih (c + 1) (by omega) (by omega)

/-- C8 (amended): the two invocation layers classify failures
differently.  In `_generate_with_retry` (`llm_ground_passage.py`) only
`ResourceExhausted` is retried: after any run of rate-limit failures, a
success is returned, any other exception is re-raised at once, and
exhausting `max_retries` rate-limit failures re-raises the last one; it
does not retry empty responses.  In `_call_llm_with_retry`
(`llm_extract_evidence.py`) every exception — not only rate limits — and
every empty response is retried up to `max_retries`. -/
theorem retry_classification (b : Nat → LlmOutcome) (maxR n : Nat)
    (hn : n < maxR) (hre : ∀ k, k < n → b k = .resourceExhausted) :
    (∀ t, b n = .response t → generateWithRetry b maxR = (.ok (some t), n + 1)) ∧
    (b n = .otherError → generateWithRetry b maxR = (.error .other, n + 1)) ∧
    ((∀ k, k < maxR → b k = .resourceExhausted) →
      generateWithRetry b maxR = (.error .resourceExhausted, maxR)) ∧
    (∀ (b2 : Nat → LlmOutcome) (t : List Char), 2 ≤ maxR →
      b2 0 = .otherError → b2 1 = .response t → t ≠ [] →
      callLlmWithRetry b2 maxR = (some t, 2)) := by
  refine ⟨?_, ?_, ?_, ?_⟩
  · intro t hb
    unfold generateWithRetry
    rw [generateWithRetryAux_reThen b maxR n hn hre (by rw [hb]; intro h; exact LlmOutcome.noConfusion h) maxR 0 (by omega) (by omega), hb]
  · intro hb
    unfold generateWithRetry
    rw [generateWithRetryAux_reThen b maxR n hn hre (by rw [hb]; intro h; exact LlmOutcome.noConfusion h) maxR 0 (by omega) (by omega), hb]
  · intro hall
    exact generateWithRetryAux_rePrefix b maxR hall maxR 0 (by omega) (by omega)
  · intro b2 t hmax hb0 hb1 ht
    rcases maxR with - | maxR2
    · omega
    · rcases maxR2 with - | maxR3
      · omega
      · rcases t with - | ⟨a, t2⟩
        · exact absurd rfl ht
        · unfold callLlmWithRetry
          rw [callLlmAux, hb0, if_neg (by omega : ¬ (0 : Nat) = maxR3 + 2 - 1)]
          rw [callLlmAux, hb1]
          simp only [List.isEmpty_cons, Bool.false_eq_true, if_false]

def otherThenOk : Nat → LlmOutcome
  | 0 => .otherError
  | _ => .response ("ok".data)

/-- Counterexample to C8 as stated: in `_call_llm_with_retry` a failure
that is neither a rate limit nor an empty response (a generic exception on
attempt 0) is *not* terminal — it is retried, and the call succeeds on
attempt 2 — contradicting "every other kind of failure is terminal after
its first occurrence and is surfaced immediately". -/
theorem retry_classification_counterexample :
    otherThenOk 0 = .otherError ∧
    otherThenOk 0 ≠ .resourceExhausted ∧
    (∀ t, otherThenOk 0 ≠ .response t) ∧
    callLlmWithRetry otherThenOk 3 = (some ("ok".data), 2) := by
  refine ⟨rfl, by decide, ?_, by decide⟩
  intro t h
  exact LlmOutcome.noConfusion h

def reThenOk : Nat → LlmOutcome
  | 0 => .resourceExhausted
  | _ => .response ("ok".data)

/-- Witness for the amended C8 at concrete behaviours: a rate-limit
failure is retried by `_generate_with_retry`, a generic exception is
surfaced at once, five rate limits exhaust it, and `_call_llm_with_retry`
retries a generic exception. -/
theorem retry_classification_witness :
    generateWithRetry reThenOk 5 = (.ok (some ("ok".data)), 2) ∧
    generateWithRetry otherThenOk 5 = (.error .other, 1) ∧
    generateWithRetry (fun _ => LlmOutcome.resourceExhausted) 5 =
      (.error .resourceExhausted, 5) ∧
    callLlmWithRetry otherThenOk 3 = (some ("ok".data), 2) := by
  refine ⟨?_, ?_, ?_, ?_⟩
  · exact (retry_classification reThenOk 5 1 (by omega)
      (by intro k hk; interval_cases k; rfl)).1 ("ok".data) rfl
  · exact (retry_classification otherThenOk 5 0 (by omega)
      (by intro k hk; omega)).2.1 rfl
  · exact (retry_classification (fun _ => .resourceExhausted) 5 0 (by omega)
      (by intro k hk; omega)).2.2.1 (fun k _ => rfl)
  · exact (retry_classification otherThenOk 3 0 (by omega)
      (by intro k hk; omega)).2.2.2 otherThenOk ("ok".data) (by omega) rfl rfl
      (by decide)

/-! ### C9: totality of segmentation -/

/-- Counterexample to C9 as stated: a document whose `description` is a
string (not a section mapping) makes `_prepare_document_enhanced` raise
`AttributeError` (`desc.items()` on a `str`) instead of returning an
empty segment sequence. -/
theorem segmentation_total_counterexample :
    prepareDocumentEnhanced
      (.dict [("description".data, .str ("x".data))]) =
      .error .attributeError := by rfl

/-- C9 (amended): segmentation returns normally — with an empty segment
sequence when there is no usable content — for every document that is a
dict whose `description` entry is absent or itself a dict (entries that
are not strings or lists are skipped); but when the `description` value
is not a dict it raises `AttributeError`, which only `run`'s surrounding
`try/except` converts into an error result. -/
theorem segmentation_total_amended :
    (∀ (docEntries : List (List Char × PyValue)),
      (lookupKey docEntries ("description".data) = Option.none ∨
        ∃ descEntries, lookupKey docEntries ("description".data) =
          some (.dict descEntries)) →
      ∃ r, prepareDocumentEnhanced (.dict docEntries) = .ok r) ∧
    (∀ (docEntries : List (List Char × PyValue))
        (descEntries : List (List Char × PyValue)),
      lookupKey docEntries ("description".data) = some (.dict descEntries) →
      (∀ e ∈ descEntries, entrySegments e.1 e.2 = []) →
      prepareDocumentEnhanced (.dict docEntries) = .ok ([], [])) ∧
    prepareDocumentEnhanced (.dict []) = .ok ([], []) := by
  refine ⟨?_, ?_, rfl⟩
  · intro docEntries hd
    rcases hd with hd | ⟨descEntries, hd⟩
    · unfold prepareDocumentEnhanced pyGet
      simp only [bind, Except.bind, hd, Option.getD_none]
      exact ⟨_, rfl⟩
    · unfold prepareDocumentEnhanced pyGet
      simp only [bind, Except.bind, hd, Option.getD_some]
      exact ⟨_, rfl⟩
  · intro docEntries descEntries hd hempty
    unfold prepareDocumentEnhanced pyGet
    simp only [bind, Except.bind, hd, Option.getD]
    have hflat : (descEntries.map (fun e => entrySegments e.1 e.2)).flatten = [] := by
      rw [List.flatten_eq_nil_iff]
      intro l hl
      rw [List.mem_map] at hl
      obtain ⟨e, he, rfl⟩ := hl
      exact hempty e he
    rw [hflat]
    rfl

/-- Witness for the amended C9: a one-section document segments normally,
a skipped non-string entry yields the empty sequence, and the empty
dict yields the empty sequence. -/
theorem segmentation_total_witness :
    (∃ r, prepareDocumentEnhanced
      (.dict [("description".data,
        .dict [("background".data,
          .list [.str ("The device includes a battery and a heater.".data)])])]) =
      .ok r) ∧
    prepareDocumentEnhanced
      (.dict [("description".data, .dict [("a".data, .int 5)])]) = .ok ([], []) := by
  constructor
  · exact (segmentation_total_amended.1 _ (Or.inr ⟨_, rfl⟩))
  · exact segmentation_total_amended.2.1 _ _ rfl (by
      intro e he
      simp only [List.mem_singleton] at he
      subst he
      rfl)

/-! ### C1, C2, C3: the quote verifier -/

theorem strContains_self (l : List Char) : strContains l l = true := by
  cases l with
  | nil => rfl
  | cons c rest =>
      unfold strContains firstOccur
      rw [if_pos (by simp [List.isPrefixOf_iff_prefix])]
      rfl

theorem verifyScan_skip (qn quote : List Char) (all : List PatentSegment)
    (i : Nat) (seg : PatentSegment) (rest : List PatentSegment)
    (h : strContains (normalizeWhitespace seg.text) qn = false) :
    verifyScan qn quote all i (seg :: rest) =
      verifyScan qn quote all (i + 1) rest := by
  have hne : ¬ qn = normalizeWhitespace seg.text := by
    intro he
    rw [he, strContains_self] at h
    exact Bool.noConfusion h
  simp only [verifyScan]
  rw [if_neg hne, if_neg (by simp [h])]

theorem verifyScan_hit_exact (qn quote : List Char) (all : List PatentSegment)
    (i : Nat) (seg : PatentSegment) (rest : List PatentSegment)
    (h : qn = normalizeWhitespace seg.text) :
    verifyScan qn quote all i (seg :: rest) =
      some (.verified, seg.id, contextBefore all i, contextAfter all i) := by
  simp only [verifyScan]
  rw [if_pos h]

theorem verifyScan_hit_sub (qn quote : List Char) (all : List PatentSegment)
    (i : Nat) (seg : PatentSegment) (rest : List PatentSegment)
    (h1 : ¬ qn = normalizeWhitespace seg.text)
    (h2 : strContains (normalizeWhitespace seg.text) qn = true) :
    verifyScan qn quote all i (seg :: rest) =
      (if isContextValid quote seg.text then
        some (.verified, seg.id, contextBefore all i, contextAfter all i)
      else
        some (.contextMismatch, seg.id, [], [])) := by
  simp only [verifyScan]
  rw [if_neg h1, if_pos h2]

theorem verifyScan_append (qn quote : List Char) (all : List PatentSegment) :
    ∀ (pre suf : List PatentSegment) (i : Nat),
    (∀ seg ∈ pre, strContains (normalizeWhitespace seg.text) qn = false) →
    verifyScan qn quote all i (pre ++ suf) =
      verifyScan qn quote all (i + pre.length) suf := by
  intro pre
  induction pre with
  | nil => intro suf i h; simp
  | cons seg pre ih =>
      intro suf i h
      rw [List.cons_append, verifyScan_skip qn quote all i seg _ (h seg (by simp))]
      rw [ih suf (i + 1) (fun s hs => h s (by simp [hs]))]
      have hl : i + 1 + pre.length = i + (seg :: pre).length := by
        simp [List.length_cons]
        omega
      rw [hl]

theorem verifyScan_to_first (quote : List Char) (segs : List PatentSegment)
    (i : Nat) (h : i < segs.length)
    (hfirst : ∀ seg ∈ segs.take i,
      strContains (normalizeWhitespace seg.text) (normalizeWhitespace quote) = false) :
    verifyScan (normalizeWhitespace quote) quote segs 0 segs =
      verifyScan (normalizeWhitespace quote) quote segs i (segs.drop i) := by
  have key := verifyScan_append (normalizeWhitespace quote) quote segs
    (segs.take i) (segs.drop i) 0 hfirst
  rw [List.take_append_drop] at key
  rw [key, List.length_take, Nat.zero_add, Nat.min_eq_left h.le]

theorem verifyQuoteEnhanced_of_scan (quote : List Char) (segs : List PatentSegment)
    (r : VerifyResult)
    (h : verifyScan (normalizeWhitespace quote) quote segs 0 segs = some r) :
    verifyQuoteEnhanced quote segs = r := by
  simp only [verifyQuoteEnhanced, h]

/-- C1 (amended): if the first segment whose normalized text contains the
normalized quote exists and its normalized text *equals* the normalized
quote, `_verify_quote_enhanced` returns Verified with that segment's id
and with context equal to the raw text of the adjacent segments (empty at
the sequence boundaries).  (As originally stated — for *some* segment
with equal normalized text — the claim fails: an earlier segment can
contain the quote as an invalid-boundary substring and stop the scan.) -/
theorem verify_exact_match (quote : List Char) (segs : List PatentSegment)
    (i : Nat) (h : i < segs.length)
    (hfirst : ∀ seg ∈ segs.take i,
      strContains (normalizeWhitespace seg.text) (normalizeWhitespace quote) = false)
    (hexact : normalizeWhitespace quote = normalizeWhitespace (segs[i].text)) :
    verifyQuoteEnhanced quote segs =
      (.verified, segs[i].id, contextBefore segs i, contextAfter segs i) := by
  apply verifyQuoteEnhanced_of_scan
  rw [verifyScan_to_first quote segs i h hfirst, List.drop_eq_getElem_cons h]
  exact verifyScan_hit_exact _ _ _ _ _ _ hexact

def c1Segs : List PatentSegment :=
  [⟨"s0".data, "xaby".data, "sec".data, 0⟩, ⟨"s1".data, "ab".data, "sec".data, 1⟩]

/-- Counterexample to C1 as stated: segment `s1`'s text equals the quote
`"ab"` after normalization, yet `_verify_quote_enhanced` returns
ContextMismatch at the earlier segment `s0` (whose text `"xaby"` contains
the quote with non-boundary neighbours), not Verified with `s1`. -/
theorem verify_exact_match_counterexample :
    normalizeWhitespace ("ab".data) =
      normalizeWhitespace ((c1Segs.get ⟨1, by decide⟩).text) ∧
    verifyQuoteEnhanced ("ab".data) c1Segs =
      (.contextMismatch, "s0".data, [], []) ∧
    (verifyQuoteEnhanced ("ab".data) c1Segs).1 ≠ .verified := by
  exact ⟨by decide, by decide, by decide⟩

def c1WitnessSegs : List PatentSegment :=
  [⟨"s0".data, "xaby".data, "sec".data, 0⟩,
   ⟨"e".data, "hello  world".data, "sec".data, 1⟩,
   ⟨"s1".data, "ab".data, "sec".data, 2⟩]

/-- Witness for the amended C1: the quote `"hello world"` matches the
middle segment exactly after normalization and is verified with that id
and the neighbouring raw texts as context. -/
theorem verify_exact_match_witness :
    verifyQuoteEnhanced ("hello world".data) c1WitnessSegs =
      (.verified, "e".data, "xaby".data, "ab".data) := by
  have := verify_exact_match ("hello world".data) c1WitnessSegs 1 (by decide)
    (by decide) (by decide)
  rw [this]
  decide

/-- C2: at the first segment whose normalized text contains the
normalized quote — here as a proper substring — the verifier returns
Verified with the adjacent-raw-text context rule when the raw quote's
occurrence in the un-normalized segment text has boundary characters
(start/end of string counting as boundaries) on both sides, and
ContextMismatch otherwise, terminating the search without falling through
to fuzzy matching. -/
theorem verify_boundary_substring (quote : List Char) (segs : List PatentSegment)
    (i : Nat) (h : i < segs.length)
    (hfirst : ∀ seg ∈ segs.take i,
      strContains (normalizeWhitespace seg.text) (normalizeWhitespace quote) = false)
    (hsub : strContains (normalizeWhitespace (segs[i].text))
      (normalizeWhitespace quote) = true)
    (hproper : normalizeWhitespace quote ≠ normalizeWhitespace (segs[i].text)) :
    verifyQuoteEnhanced quote segs =
      (if isContextValid quote (segs[i].text) then
        (.verified, segs[i].id, contextBefore segs i, contextAfter segs i)
      else
        (.contextMismatch, segs[i].id, [], [])) := by
  have key : verifyScan (normalizeWhitespace quote) quote segs 0 segs =
      (if isContextValid quote (segs[i].text) then
        some (.verified, segs[i].id, contextBefore segs i, contextAfter segs i)
      else
        some (.contextMismatch, segs[i].id, [], [])) := by
    rw [verifyScan_to_first quote segs i h hfirst, List.drop_eq_getElem_cons h]
    exact verifyScan_hit_sub _ _ _ _ _ _ hproper hsub
  by_cases hv : isContextValid quote (segs[i].text) = true
  · rw [if_pos hv] at key
    rw [verifyQuoteEnhanced_of_scan _ _ _ key, if_pos hv]
  · rw [if_neg hv] at key
    rw [verifyQuoteEnhanced_of_scan _ _ _ key, if_neg hv]

def c2Segs : List PatentSegment :=
  [⟨"c".data, "锂电池与传感器".data, "sec".data, 0⟩]

/-- Witness for C2 at the claim's own example: the quote `"电池"` occurs
mid-word inside `"锂电池与传感器"`, its neighbours are not boundary
characters, so the result is ContextMismatch — never Verified. -/
theorem verify_boundary_substring_witness :
    verifyQuoteEnhanced ("电池".data) c2Segs =
      (.contextMismatch, "c".data, [], []) ∧
    (verifyQuoteEnhanced ("电池".data) c2Segs).1 ≠ .verified := by
  have := verify_boundary_substring ("电池".data) c2Segs 0 (by decide)
    (by decide) (by decide) (by decide)
  rw [this]
  exact ⟨by decide, by decide⟩

theorem verifyScan_none (qn quote : List Char) (all : List PatentSegment) :
    ∀ (l : List PatentSegment) (i : Nat),
    (∀ seg ∈ l, strContains (normalizeWhitespace seg.text) qn = false) →
    verifyScan qn quote all i l = Option.none := by
  intro l
  induction l with
  | nil => intro i h; rfl
  | cons seg rest ih =>
      intro i h
      rw [verifyScan_skip qn quote all i seg rest (h seg (by simp))]
      exact ih (i + 1) (fun s hs => h s (by simp [hs]))

theorem verifyScan_contains_hit (qn quote : List Char) (all : List PatentSegment) :
    ∀ (l : List PatentSegment) (i : Nat),
    (∃ seg ∈ l, strContains (normalizeWhitespace seg.text) qn = true) →
    ∃ r, verifyScan qn quote all i l = some r ∧
      (r.1 = VerificationStatus.verified ∨ r.1 = VerificationStatus.contextMismatch) := by
  intro l
  induction l with
  | nil => rintro i ⟨seg, hm, -⟩; exact absurd hm (List.not_mem_nil seg)
  | cons s rest ih =>
      rintro i ⟨seg, hm, hc⟩
      by_cases he : qn = normalizeWhitespace s.text
      · exact ⟨_, verifyScan_hit_exact qn quote all i s rest he, Or.inl rfl⟩
      · by_cases hs : strContains (normalizeWhitespace s.text) qn = true
        · rw [verifyScan_hit_sub qn quote all i s rest he hs]
          by_cases hv : isContextValid quote s.text = true
          · rw [if_pos hv]
            exact ⟨_, rfl, Or.inl rfl⟩
          · rw [if_neg hv]
            exact ⟨_, rfl, Or.inr rfl⟩
        · have hsf : strContains (normalizeWhitespace s.text) qn = false :=
            Bool.eq_false_iff.mpr hs
          rw [verifyScan_skip qn quote all i s rest hsf]
          rcases List.mem_cons.mp hm with rfl | hm2
          · exact absurd hc hs
          · exact ih (i + 1) ⟨seg, hm2, hc⟩

theorem fuzzyScan_append (quote : List Char) :
    ∀ (pre suf : List PatentSegment),
    (∀ seg ∈ pre, fuzzyMatch quote seg.text = false) →
    fuzzyScan quote (pre ++ suf) = fuzzyScan quote suf := by
  intro pre
  induction pre with
  | nil => intro suf h; rfl
  | cons seg pre ih =>
      intro suf h
      rw [List.cons_append]
      simp only [fuzzyScan]
      rw [if_neg (by simp [h seg (by simp)])]
      exact ih suf (fun s hs => h s (by simp [hs]))

theorem fuzzyScan_hit (quote : List Char) (seg : PatentSegment)
    (rest : List PatentSegment) (h : fuzzyMatch quote seg.text = true) :
    fuzzyScan quote (seg :: rest) = some (.partialMatch, seg.id, [], []) := by
  simp only [fuzzyScan]
  rw [if_pos h]

theorem verifyQuoteEnhanced_eq_fuzzy (quote : List Char) (segs : List PatentSegment)
    (h : verifyScan (normalizeWhitespace quote) quote segs 0 segs = Option.none) :
    verifyQuoteEnhanced quote segs =
      (match fuzzyScan quote segs with
       | some r => r
       | Option.none => (.notFound, "N/A".data, [], [])) := by
  simp only [verifyQuoteEnhanced, h]

/-- C3: the fuzzy stage runs only when no segment's normalized text
contains the normalized quote (otherwise the result is Verified or
ContextMismatch); it compares the space-free character-set overlap
`|charset(quote) ∩ charset(text)| / |charset(quote)|` against the
threshold 0.85, returns PartialMatch at the first qualifying segment, and
NotFound when no segment qualifies. -/
theorem fuzzy_stage (quote : List Char) (segs : List PatentSegment) :
    ((∃ seg ∈ segs, strContains (normalizeWhitespace seg.text)
        (normalizeWhitespace quote) = true) →
      (verifyQuoteEnhanced quote segs).1 = VerificationStatus.verified ∨
      (verifyQuoteEnhanced quote segs).1 = VerificationStatus.contextMismatch) ∧
    (∀ i (h : i < segs.length),
      (∀ seg ∈ segs, strContains (normalizeWhitespace seg.text)
        (normalizeWhitespace quote) = false) →
      (∀ seg ∈ segs.take i, fuzzyMatch quote seg.text = false) →
      fuzzyMatch quote (segs[i].text) = true →
      verifyQuoteEnhanced quote segs = (.partialMatch, segs[i].id, [], [])) ∧
    ((∀ seg ∈ segs, strContains (normalizeWhitespace seg.text)
        (normalizeWhitespace quote) = false) →
      (∀ seg ∈ segs, fuzzyMatch quote seg.text = false) →
      verifyQuoteEnhanced quote segs = (.notFound, "N/A".data, [], [])) := by
  refine ⟨?_, ?_, ?_⟩
  · intro hex
    obtain ⟨r, hr, hst⟩ := verifyScan_contains_hit (normalizeWhitespace quote)
      quote segs segs 0 hex
    rw [verifyQuoteEnhanced_of_scan _ _ _ hr]
    exact hst
  · intro i h hnone hpre hhit
    rw [verifyQuoteEnhanced_eq_fuzzy quote segs
      (verifyScan_none _ quote segs segs 0 hnone)]
    have hsplit := fuzzyScan_append quote (segs.take i) (segs.drop i) hpre
    rw [List.take_append_drop] at hsplit
    rw [hsplit, List.drop_eq_getElem_cons h, fuzzyScan_hit quote _ _ hhit]
  · intro hnone hfz
    rw [verifyQuoteEnhanced_eq_fuzzy quote segs
      (verifyScan_none _ quote segs segs 0 hnone)]
    have : fuzzyScan quote segs = Option.none := by
      have := fuzzyScan_append quote segs [] hfz
      simpa using this
    rw [this]

def c3Segs : List PatentSegment := [⟨"g".data, "xxabcdefxx".data, "sec".data, 0⟩]
def c3SegsB : List PatentSegment := [⟨"f".data, "qqabcdqq".data, "sec".data, 0⟩]

/-- Witness for C3: a 6-of-7 character overlap (≈ 0.857 ≥ 0.85) yields
PartialMatch at that segment; a 4-of-5 overlap (0.8 < 0.85) yields
NotFound; a segment containing the normalized quote never reaches the
fuzzy stage. -/
theorem fuzzy_stage_witness :
    verifyQuoteEnhanced ("abcdefg".data) c3Segs = (.partialMatch, "g".data, [], []) ∧
    verifyQuoteEnhanced ("abcde".data) c3SegsB = (.notFound, "N/A".data, [], []) ∧
    ((verifyQuoteEnhanced ("电池".data) c2Segs).1 = VerificationStatus.verified ∨
      (verifyQuoteEnhanced ("电池".data) c2Segs).1 = VerificationStatus.contextMismatch) := by
  refine ⟨?_, ?_, ?_⟩
  · exact (fuzzy_stage ("abcdefg".data) c3Segs).2.1 0 (by decide) (by decide)
      (by decide) (by decide)
  · exact (fuzzy_stage ("abcde".data) c3SegsB).2.2 (by decide) (by decide)
  · exact (fuzzy_stage ("电池".data) c2Segs).1
      ⟨⟨"c".data, "锂电池与传感器".data, "sec".data, 0⟩, by decide, by decide⟩

/-! ### C6: structured-response extraction cascade -/

/-- The strategy returned a truthy parsed object. -/
def stratYields (f : List Char → Except PyErr (Option PyValue)) (t : List Char)
    (v : PyValue) : Prop :=
  f t = .ok (some v) ∧ v.truthy = true

/-- The strategy contributed nothing: it raised an exception, found
nothing, or produced a falsy object. -/
def stratFails (f : List Char → Except PyErr (Option PyValue)) (t : List Char) :
    Prop :=
  ∀ v, ¬ stratYields f t v

theorem stratFails_step (t : List Char) (f : List Char → Except PyErr (Option PyValue))
    (fs : List (List Char → Except PyErr (Option PyValue)))
    (hf : stratFails f t) :
    runStrategies t (f :: fs) = runStrategies t fs := by
  simp only [runStrategies]
  rcases hr : f t with e | o
  · rfl
  · rcases o with - | v
    · rfl
    · have hv : v.truthy = false := by
        rcases hb : v.truthy with - | -
        · rfl
        · exact absurd ⟨hr, hb⟩ (hf v)
      simp [hv]

theorem stratYields_step (t : List Char) (f : List Char → Except PyErr (Option PyValue))
    (fs : List (List Char → Except PyErr (Option PyValue))) (v : PyValue)
    (hf : stratYields f t v) :
    runStrategies t (f :: fs) = some v := by
  simp only [runStrategies, hf.1]
  simp [hf.2]

theorem strat_dichotomy (t : List Char) (f : List Char → Except PyErr (Option PyValue)) :
    (∃ v, stratYields f t v) ∨ stratFails f t := by
  rcases hr : f t with e | o
  · right
    rintro v ⟨h1, -⟩
    rw [hr] at h1
    exact Except.noConfusion h1
  · rcases o with - | w
    · right
      rintro v ⟨h1, -⟩
      rw [hr] at h1
      injection h1 with h1
      exact Option.noConfusion h1
    · rcases hb : w.truthy with - | -
      · right
        rintro v ⟨h1, h2⟩
        rw [hr] at h1
        injection h1 with h1
        injection h1 with h1
        subst h1
        rw [hb] at h2
        exact Bool.noConfusion h2
      · exact Or.inl ⟨w, hr, hb⟩

theorem stratYields_unique (t : List Char)
    (f : List Char → Except PyErr (Option PyValue)) (v w : PyValue)
    (hv : stratYields f t v) (hw : stratYields f t w) : v = w := by
  have h := hv.1.symm.trans hw.1
  injection h with h
  injection h

/-- C6 (amended): `extract_json_from_text` attempts its four strategies in
the fixed order (fenced `json` code block; first `{` to last `}`;
thinking-region stripped then brace-balanced regex; direct parse), and
returns the object of the first strategy that produces a *truthy*
(non-empty) object; a strategy that raises, finds nothing, or produces a
falsy object (such as the empty dict) is skipped, and when all four fail
in this sense it returns `None` rather than raising.  (As originally
stated — "first succeeding strategy" — the claim fails on input `"{}"`:
every strategy parses the empty object, yet the extractor returns
failure.) -/
theorem extract_cascade (t : List Char) :
    (∀ v, extractJsonFromText t = some v ↔
      (stratYields extractFromCodeBlock t v ∨
       (stratFails extractFromCodeBlock t ∧ stratYields extractFromBrackets t v) ∨
       (stratFails extractFromCodeBlock t ∧ stratFails extractFromBrackets t ∧
         stratYields extractWithRegex t v) ∨
       (stratFails extractFromCodeBlock t ∧ stratFails extractFromBrackets t ∧
         stratFails extractWithRegex t ∧ stratYields directParse t v))) ∧
    (extractJsonFromText t = Option.none ↔
      (stratFails extractFromCodeBlock t ∧ stratFails extractFromBrackets t ∧
       stratFails extractWithRegex t ∧ stratFails directParse t)) := by
  constructor
  · intro v
    constructor
    · intro h
      unfold extractJsonFromText extractStrategies at h
      rcases strat_dichotomy t extractFromCodeBlock with ⟨w1, hw1⟩ | hf1
      · rw [stratYields_step _ _ _ _ hw1] at h
        injection h with h
        subst h
        exact Or.inl hw1
      · rw [stratFails_step _ _ _ hf1] at h
        rcases strat_dichotomy t extractFromBrackets with ⟨w2, hw2⟩ | hf2
        · rw [stratYields_step _ _ _ _ hw2] at h
          injection h with h
          subst h
          exact Or.inr (Or.inl ⟨hf1, hw2⟩)
        · rw [stratFails_step _ _ _ hf2] at h
          rcases strat_dichotomy t extractWithRegex with ⟨w3, hw3⟩ | hf3
          · rw [stratYields_step _ _ _ _ hw3] at h
            injection h with h
            subst h
            exact Or.inr (Or.inr (Or.inl ⟨hf1, hf2, hw3⟩))
          · rw [stratFails_step _ _ _ hf3] at h
            rcases strat_dichotomy t directParse with ⟨w4, hw4⟩ | hf4
            · rw [stratYields_step _ _ _ _ hw4] at h
              injection h with h
              subst h
              exact Or.inr (Or.inr (Or.inr ⟨hf1, hf2, hf3, hw4⟩))
            · rw [stratFails_step _ _ _ hf4] at h
              exact Option.noConfusion h
    · intro h
      unfold extractJsonFromText extractStrategies
      rcases h with hy | ⟨hf1, hy⟩ | ⟨hf1, hf2, hy⟩ | ⟨hf1, hf2, hf3, hy⟩
      · exact stratYields_step _ _ _ _ hy
      · rw [stratFails_step _ _ _ hf1]
        exact stratYields_step _ _ _ _ hy
      · rw [stratFails_step _ _ _ hf1, stratFails_step _ _ _ hf2]
        exact stratYields_step _ _ _ _ hy
      · rw [stratFails_step _ _ _ hf1, stratFails_step _ _ _ hf2,
            stratFails_step _ _ _ hf3]
        exact stratYields_step _ _ _ _ hy
  · constructor
    · intro h
      unfold extractJsonFromText extractStrategies at h
      rcases strat_dichotomy t extractFromCodeBlock with ⟨w1, hw1⟩ | hf1
      · rw [stratYields_step _ _ _ _ hw1] at h
        exact Option.noConfusion h
      · rw [stratFails_step _ _ _ hf1] at h
        rcases strat_dichotomy t extractFromBrackets with ⟨w2, hw2⟩ | hf2
        · rw [stratYields_step _ _ _ _ hw2] at h
          exact Option.noConfusion h
        · rw [stratFails_step _ _ _ hf2] at h
          rcases strat_dichotomy t extractWithRegex with ⟨w3, hw3⟩ | hf3
          · rw [stratYields_step _ _ _ _ hw3] at h
            exact Option.noConfusion h
          · rw [stratFails_step _ _ _ hf3] at h
            rcases strat_dichotomy t directParse with ⟨w4, hw4⟩ | hf4
            · rw [stratYields_step _ _ _ _ hw4] at h
              exact Option.noConfusion h
            · exact ⟨hf1, hf2, hf3, hf4⟩
    · rintro ⟨hf1, hf2, hf3, hf4⟩
      unfold extractJsonFromText extractStrategies
      rw [stratFails_step _ _ _ hf1, stratFails_step _ _ _ hf2,
          stratFails_step _ _ _ hf3, stratFails_step _ _ _ hf4]
      rfl

/-- Counterexample to C6 as stated: on input `"{}"` the bracket-slice and
direct-parse strategies both succeed and produce the (empty) object, yet
the extractor returns failure rather than that object. -/
theorem extract_cascade_counterexample :
    extractFromBrackets ("\x7b\x7d".data) = .ok (some (.dict [])) ∧
    directParse ("\x7b\x7d".data) = .ok (some (.dict [])) ∧
    extractJsonFromText ("\x7b\x7d".data) = Option.none := by
  exact ⟨rfl, rfl, rfl⟩

/-- Witness for the amended C6: on input `"3"` the first three strategies
fail and the direct parse produces the (truthy) value 3, which the
extractor returns. -/
theorem extract_cascade_witness :
    extractJsonFromText ("3".data) = some (.int 3) := by
  have h1 : stratFails extractFromCodeBlock ("3".data) := by
    rintro v ⟨h, -⟩
    rw [show extractFromCodeBlock ("3".data) = .ok Option.none from rfl] at h
    injection h with h
    exact Option.noConfusion h
  have h2 : stratFails extractFromBrackets ("3".data) := by
    rintro v ⟨h, -⟩
    rw [show extractFromBrackets ("3".data) = .ok Option.none from rfl] at h
    injection h with h
    exact Option.noConfusion h
  have h3 : stratFails extractWithRegex ("3".data) := by
    rintro v ⟨h, -⟩
    rw [show extractWithRegex ("3".data) = .ok Option.none from rfl] at h
    injection h with h
    exact Option.noConfusion h
  exact ((extract_cascade ("3".data)).1 (.int 3)).mpr
    (Or.inr (Or.inr (Or.inr ⟨h1, h2, h3, rfl, rfl⟩)))

/-! ### C10: counter invariant of `run` -/

theorem tally_sum (t : Tally) : t.v + t.p + t.n = 1 := by
  cases t <;> rfl

theorem processArgs_sum (segments : List PatentSegment)
    (llm : Nat → Option (List Char)) :
    ∀ (args : List PyValue) (i : Nat) items v p n errs,
    processArgs segments llm i args = .ok (items, v, p, n, errs) →
    v + p + n = args.length := by
  intro args
  induction args with
  | nil =>
      intro i items v p n errs h
      simp only [processArgs, Except.ok.injEq, Prod.mk.injEq] at h
      obtain ⟨-, hv, hp, hn, -⟩ := h
      simp only [List.length_nil]
      omega
  | cons arg rest ih =>
      intro i items v p n errs h
      simp only [processArgs] at h
      rcases hpa : processAssertion segments arg (llm i) with e | ⟨entry?, t, err?⟩ <;>
        rw [hpa] at h
      · exact Except.noConfusion h
      · rcases hrec : processArgs segments llm (i + 1) rest with
          e2 | ⟨items2, v2, p2, n2, errs2⟩ <;> rw [hrec] at h
        · exact Except.noConfusion h
        · simp only [Except.ok.injEq, Prod.mk.injEq] at h
          obtain ⟨-, hv, hp, hn, -⟩ := h
          have hsum := ih (i + 1) items2 v2 p2 n2 errs2 hrec
          have ht := tally_sum t
          simp only [List.length_cons]
          omega

theorem pyIter_length (v : PyValue) (l : List PyValue) (h : pyIter v = .ok l) :
    pyLen v = .ok l.length := by
  cases v <;> simp only [pyIter] at h <;>
    first
    | exact Except.noConfusion h
    | (injection h with h; subst h; simp [pyLen])

theorem runWithReview_counter_invariant (patentJson : PyValue)
    (segments : List PatentSegment) (reviewText : PyValue)
    (llm : Nat → Option (List Char)) (r : ExtractionResult)
    (h : minerRunWithReview patentJson segments reviewText llm = .ok r) :
    r.verifiedCount + r.partialCount + r.notFoundCount = r.totalAssertions := by
  unfold minerRunWithReview at h
  simp only [bind, Except.bind] at h
  rcases hdn : pyGet patentJson ("doc_number".data) (.str ("Unknown".data)) with
    e | docNum
  · simp only [hdn] at h
    exact Except.noConfusion h
  simp only [hdn] at h
  rcases hrt : reviewText.truthy with - | -
  · simp only [hrt, Bool.not_false, if_true] at h
    injection h with h
    subst h
    rfl
  simp only [hrt, Bool.not_true, Bool.false_eq_true, if_false] at h
  rcases hl0 : llm 0 with - | t1
  · simp only [hl0] at h
    injection h with h
    subst h
    rfl
  simp only [hl0] at h
  rcases hte : t1.isEmpty with - | -
  swap
  · simp only [hte, if_true] at h
    injection h with h
    subst h
    rfl
  simp only [hte, Bool.false_eq_true, if_false] at h
  rcases hex : extractJsonFromText t1 with - | argsData
  · simp only [hex] at h
    injection h with h
    subst h
    rfl
  simp only [hex] at h
  rcases hargs : pyGet argsData ("arguments".data) (.list []) with e | arguments
  · simp only [hargs] at h
    exact Except.noConfusion h
  simp only [hargs] at h
  rcases hlen : pyLen arguments with e | originalCount
  · simp only [hlen] at h
    exact Except.noConfusion h
  simp only [hlen] at h
  rcases hconf : pyGet argsData ("confidence".data) (.int 0) with e | confidence
  · simp only [hconf] at h
    exact Except.noConfusion h
  simp only [hconf] at h
  rcases hnum : requireNumeric confidence with e | u
  · simp only [hnum] at h
    exact Except.noConfusion h
  simp only [hnum] at h
  rcases hiter : pyIter arguments with e | elems
  · simp only [hiter] at h
    exact Except.noConfusion h
  simp only [hiter] at h
  rcases hval : elems.mapM validateDisplayArg with e | us
  · simp only [hval] at h
    exact Except.noConfusion h
  simp only [hval] at h
  rcases hpa : processArgs segments llm 1 elems with e | ⟨items, v, p, n, errs⟩
  · simp only [hpa] at h
    exact Except.noConfusion h
  simp only [hpa] at h
  injection h with h
  subst h
  have hsum := processArgs_sum segments llm elems 1 items v p n errs hpa
  have hl := pyIter_length arguments elems hiter
  rw [hlen] at hl
  injection hl with hl
  show v + p + n = originalCount
  omega

/-- C10: whenever `run` returns an `ExtractionResult` (rather than
raising), `verifiedCount + partialCount + notFoundCount =
totalAssertions`: every parsed assertion increments exactly one of the
three counters, with a failed generation call, a failed JSON extraction,
an empty evidence list and a model-reported "no evidence" each counted
as NotFound, and every early-exit result carrying all-zero counters. -/
theorem run_counter_invariant (reviewJson patentJson : PyValue)
    (llm : Nat → Option (List Char)) (r : ExtractionResult)
    (h : minerRun reviewJson patentJson llm = .ok r) :
    r.verifiedCount + r.partialCount + r.notFoundCount = r.totalAssertions := by
  unfold minerRun at h
  rcases hprep : prepareDocumentEnhanced patentJson with e | ⟨docText, segments⟩ <;>
    simp only [hprep] at h
  · injection h with h
    subst h
    rfl
  · simp only [bind, Except.bind] at h
    rcases hg1 : pyGet reviewJson ("examiner_review".data) .none with e1 | r1
    · simp only [hg1] at h
      exact Except.noConfusion h
    simp only [hg1] at h
    rcases htr : r1.truthy with - | -
    · simp only [htr, Bool.false_eq_true, if_false] at h
      rcases hg2 : pyGet reviewJson ("final_decision".data) (.str []) with e2 | rt
      · simp only [hg2] at h
        exact Except.noConfusion h
      simp only [hg2] at h
      exact runWithReview_counter_invariant patentJson segments rt llm r h
    · simp only [htr, if_true, pure, Except.pure] at h
      exact runWithReview_counter_invariant patentJson segments r1 llm r h

def c10Patent : PyValue := .dict
  [("description".data, .dict [("background".data,
      .list [.str "The device includes a battery and a heater.".data])]),
   ("doc_number".data, .str "D1".data)]

def c10Review : PyValue := .dict [("examiner_review".data, .str "r".data)]

def c10ArgsResponse : List Char :=
  "\x7b\"arguments\": [\x7b\"assertion\": \"battery and heater present\", \"claim_scope\": \"c1\"\x7d], \"confidence\": 1\x7d".data

def c10EvidenceResponse : List Char :=
  "<thinking>hm</thinking> \x7b\"found\": true, \"evidence\": [\x7b\"quote\": \"The device includes a battery and a heater.\", \"source_id\": \"[x]\", \"character_count\": 43, \"proves\": \"p\"\x7d], \"quality_check\": \x7b\"confidence\": 1\x7d\x7d".data

def c10Llm : Nat → Option (List Char) :=
  fun k => [some c10ArgsResponse, some c10EvidenceResponse].getD k Option.none

def c10Result : ExtractionResult :=
  ⟨.str "D1".data, 1, 1, 0, 0,
    [.item ⟨.str "c1".data, "battery and heater present".data,
      [⟨"The device includes a battery and a heater.".data,
        .str "[background_0000]".data, 43, .str "p".data, [], [], true, true⟩],
      .verified, .int 1, "hm".data, []⟩],
    []⟩

set_option maxRecDepth 40000 in
/-- Witness for C10 on a concrete end-to-end run: one assertion with one
verified citation; `1 + 0 + 0 = 1`. -/
theorem run_counter_invariant_witness :
    minerRun c10Review c10Patent c10Llm = .ok c10Result ∧
    c10Result.verifiedCount + c10Result.partialCount + c10Result.notFoundCount =
      c10Result.totalAssertions :=
  ⟨rfl, run_counter_invariant c10Review c10Patent c10Llm c10Result rfl⟩


/-! ### C5: uniqueness of segment ids -/

theorem digitChar_ne_underscore (d : Nat) : digitChar d ≠ ('_' : Char) := by
  unfold digitChar
  split <;> decide

theorem digitChar_toNat (d : Nat) (h : d < 10) : (digitChar d).toNat = 48 + d := by
  interval_cases d <;> rfl

theorem digitsToNat_append_singleton (ds : List Char) (c : Char) :
    digitsToNat (ds ++ [c]) = 10 * digitsToNat ds + (c.toNat - '0'.toNat) := by
  unfold digitsToNat
  rw [List.foldl_append]
  rfl

theorem digitsToNat_cons_zero (l : List Char) :
    digitsToNat ('0' :: l) = digitsToNat l := by
  unfold digitsToNat
  rfl

theorem digitsToNat_natDecDigits :
    ∀ fuel n, n < fuel → digitsToNat (natDecDigits fuel n) = n := by
  intro fuel
  induction fuel with
  | zero => intro n h; omega
  | succ fuel ih =>
      intro n h
      rw [natDecDigits]
      by_cases h10 : n < 10
      · rw [if_pos h10]
        have : digitsToNat [digitChar n] = (digitChar n).toNat - '0'.toNat := by
          unfold digitsToNat
          simp [List.foldl_cons]
        rw [this, digitChar_toNat n h10]
        have h0 : ('0' : Char).toNat = 48 := rfl
        rw [h0]
        omega
      · rw [if_neg h10]
        rw [digitsToNat_append_singleton]
        have hdiv : n / 10 < n := Nat.div_lt_self (by omega) (by omega)
        rw [ih (n / 10) (by omega)]
        rw [digitChar_toNat (n % 10) (Nat.mod_lt n (by omega))]
        have h0 : ('0' : Char).toNat = 48 := rfl
        rw [h0]
        have := Nat.div_add_mod n 10
        omega

theorem digitsToNat_replicate_zero :
    ∀ (k : Nat) (ds : List Char),
    digitsToNat (List.replicate k '0' ++ ds) = digitsToNat ds := by
  intro k
  induction k with
  | zero => intro ds; rfl
  | succ k ih =>
      intro ds
      rw [List.replicate_succ, List.cons_append, digitsToNat_cons_zero]
      exact ih ds

theorem digitsToNat_pad4 (n : Nat) : digitsToNat (pad4 n) = n := by
  unfold pad4
  rw [digitsToNat_replicate_zero]
  exact digitsToNat_natDecDigits (n + 1) n (by omega)

theorem pad4_inj (m n : Nat) (h : pad4 m = pad4 n) : m = n := by
  have hm := digitsToNat_pad4 m
  rw [h, digitsToNat_pad4] at hm
  omega

theorem natDecDigits_ne_underscore :
    ∀ fuel n c, c ∈ natDecDigits fuel n → c ≠ ('_' : Char) := by
  intro fuel
  induction fuel with
  | zero => intro n c h; simp [natDecDigits] at h
  | succ fuel ih =>
      intro n c h
      rw [natDecDigits] at h
      by_cases h10 : n < 10
      · rw [if_pos h10] at h
        simp only [List.mem_singleton] at h
        subst h
        exact digitChar_ne_underscore n
      · rw [if_neg h10] at h
        rcases List.mem_append.mp h with h | h
        · exact ih (n / 10) c h
        · simp only [List.mem_singleton] at h
          subst h
          exact digitChar_ne_underscore _

theorem pad4_ne_underscore (n : Nat) (c : Char) (h : c ∈ pad4 n) :
    c ≠ ('_' : Char) := by
  unfold pad4 at h
  rcases List.mem_append.mp h with h | h
  · rw [List.eq_of_mem_replicate h]
    decide
  · exact natDecDigits_ne_underscore _ _ _ h

theorem takeWhile_underscore_split (s : List Char) (h : ('_' : Char) ∉ s)
    (r : List Char) :
    (s ++ '_' :: r).takeWhile (fun c => c != '_') = s ∧
    (s ++ '_' :: r).dropWhile (fun c => c != '_') = '_' :: r := by
  induction s with
  | nil => constructor <;> simp [List.takeWhile, List.dropWhile]
  | cons c s ih =>
      have hc : c ≠ '_' := fun he => h (by simp [he])
      have hs : ('_' : Char) ∉ s := fun he => h (by simp [he])
      obtain ⟨h1, h2⟩ := ih hs
      constructor
      · rw [List.cons_append, List.takeWhile_cons]
        simp only [bne_iff_ne, ne_eq, hc, not_false_eq_true, if_true, h1]
      · rw [List.cons_append, List.dropWhile_cons]
        simp only [bne_iff_ne, ne_eq, hc, not_false_eq_true, if_true, h2]


theorem synthListId_inj (s1 s2 : List Char) (i1 i2 : Nat)
    (h1 : ('_' : Char) ∉ s1) (h2 : ('_' : Char) ∉ s2)
    (he : synthListId s1 i1 = synthListId s2 i2) : s1 = s2 ∧ i1 = i2 := by
  unfold synthListId at he
  injection he with _ he
  have he2 : s1 ++ '_' :: pad4 i1 = s2 ++ '_' :: pad4 i2 :=
    List.append_cancel_right he
  have ht1 := (takeWhile_underscore_split s1 h1 (pad4 i1)).1
  have ht2 := (takeWhile_underscore_split s2 h2 (pad4 i2)).1
  have hd1 := (takeWhile_underscore_split s1 h1 (pad4 i1)).2
  have hd2 := (takeWhile_underscore_split s2 h2 (pad4 i2)).2
  have hs : s1 = s2 := by rw [← ht1, ← ht2, he2]
  refine ⟨hs, ?_⟩
  have hpad : ('_' :: pad4 i1 : List Char) = '_' :: pad4 i2 := by
    rw [← hd1, ← hd2, he2]
  injection hpad with _ hpad
  exact pad4_inj _ _ hpad

theorem synthListId_inj_section (s : List Char) (i1 i2 : Nat)
    (he : synthListId s i1 = synthListId s i2) : i1 = i2 := by
  unfold synthListId at he
  injection he with _ he
  have he2 := List.append_cancel_right he
  have he3 := List.append_cancel_left he2
  injection he3 with _ he3
  exact pad4_inj _ _ he3

theorem synthStrId_inj (s1 s2 : List Char) (he : synthStrId s1 = synthStrId s2) :
    s1 = s2 := by
  unfold synthStrId at he
  injection he with _ he
  exact List.append_cancel_right he

theorem synthStrId_ne_synthListId (s1 s2 : List Char) (i : Nat)
    (h1 : ('_' : Char) ∉ s1) :
    synthStrId s1 ≠ synthListId s2 i := by
  intro he
  unfold synthStrId synthListId at he
  injection he with _ he
  have he2 : s1 = s2 ++ '_' :: pad4 i := List.append_cancel_right he
  apply h1
  rw [he2]
  exact List.mem_append.mpr (Or.inr (List.mem_cons_self _ _))

/-- No list element that is a string carries an embedded paragraph
marker (so every id of this content is synthesized). -/
def markerFreeContent : PyValue → Bool
  | .list items => items.all (fun v =>
      match v with
      | .str s2 => (extractParagraphNumber s2).isNone
      | _ => true)
  | _ => true

theorem markerFree_elim (items : List PyValue)
    (hm : markerFreeContent (.list items) = true) :
    ∀ v ∈ items, ∀ s2, v = PyValue.str s2 →
      extractParagraphNumber s2 = Option.none := by
  intro v hv s2 hvs
  subst hvs
  have := List.all_eq_true.mp hm _ hv
  simpa [Option.isNone_iff_eq_none] using this

theorem listSegments_id_shape (sec : List Char) :
    ∀ (items : List PyValue) (start : Nat),
    (∀ v ∈ items, ∀ s2, v = PyValue.str s2 →
      extractParagraphNumber s2 = Option.none) →
    ∀ seg ∈ listSegments sec start items,
      ∃ i, start ≤ i ∧ seg.id = synthListId sec i := by
  intro items
  induction items with
  | nil => intro start hm seg hs; simp [listSegments] at hs
  | cons v rest ih =>
      intro start hm seg hs
      have hmrest : ∀ v2 ∈ rest, ∀ s2, v2 = PyValue.str s2 →
          extractParagraphNumber s2 = Option.none :=
        fun v2 hv2 => hm v2 (List.mem_cons_of_mem _ hv2)
      have tailCase : seg ∈ listSegments sec (start + 1) rest →
          ∃ i, start ≤ i ∧ seg.id = synthListId sec i := by
        intro hs2
        obtain ⟨i, hi, hid⟩ := ih (start + 1) hmrest seg hs2
        exact ⟨i, by omega, hid⟩
      rcases v with s2 | n | b | l | d | _ <;>
        simp only [listSegments, List.nil_append] at hs
      case str =>
        rw [hm (.str s2) (List.mem_cons_self _ _) s2 rfl] at hs
        by_cases ht : stripTruthy s2 = true
        · rw [if_pos ht] at hs
          rcases List.mem_append.mp hs with hs | hs
          · simp only [Option.getD_none, List.mem_singleton] at hs
            subst hs
            exact ⟨start, Nat.le_refl _, rfl⟩
          · exact tailCase hs
        · rw [if_neg ht, List.nil_append] at hs
          exact tailCase hs
      all_goals exact tailCase hs

theorem listSegments_ids_nodup (sec : List Char) :
    ∀ (items : List PyValue) (start : Nat),
    (∀ v ∈ items, ∀ s2, v = PyValue.str s2 →
      extractParagraphNumber s2 = Option.none) →
    ((listSegments sec start items).map PatentSegment.id).Nodup := by
  intro items
  induction items with
  | nil => intro start hm; simp [listSegments]
  | cons v rest ih =>
      intro start hm
      have hmrest : ∀ v2 ∈ rest, ∀ s2, v2 = PyValue.str s2 →
          extractParagraphNumber s2 = Option.none :=
        fun v2 hv2 => hm v2 (List.mem_cons_of_mem _ hv2)
      have htail := ih (start + 1) hmrest
      rcases v with s2 | n | b | l | d | _ <;>
        simp only [listSegments, List.nil_append]
      case str =>
        rw [hm (.str s2) (List.mem_cons_self _ _) s2 rfl]
        by_cases ht : stripTruthy s2 = true
        · rw [if_pos ht, List.map_append, List.nodup_append]
          refine ⟨by simp, htail, ?_⟩
          intro a ha hb
          simp only [Option.getD_none, List.map_cons, List.map_nil,
            List.mem_singleton] at ha
          obtain ⟨seg2, hs2, hid2⟩ := List.mem_map.mp hb
          obtain ⟨i, hi, hseg2⟩ := listSegments_id_shape sec rest (start + 1)
            hmrest seg2 hs2
          rw [hseg2] at hid2
          rw [ha] at hid2
          have := synthListId_inj_section sec i start hid2
          omega
        · rw [if_neg ht, List.nil_append]
          exact htail
      all_goals exact htail

theorem entrySegments_id_shape (sec : List Char) (content : PyValue)
    (hm : markerFreeContent content = true) :
    ∀ seg ∈ entrySegments sec content,
      seg.id = synthStrId sec ∨ ∃ i, seg.id = synthListId sec i := by
  intro seg hs
  rcases content with s2 | n | b | items | d | _ <;>
    simp only [entrySegments] at hs
  case str =>
    by_cases ht : stripTruthy s2 = true
    · rw [if_pos ht] at hs
      simp only [List.mem_singleton] at hs
      subst hs
      exact Or.inl rfl
    · rw [if_neg ht] at hs
      simp at hs
  case list =>
    obtain ⟨i, -, hid⟩ := listSegments_id_shape sec items 0
      (markerFree_elim items hm) seg hs
    exact Or.inr ⟨i, hid⟩
  all_goals simp at hs

theorem entrySegments_nodup (sec : List Char) (content : PyValue)
    (hm : markerFreeContent content = true) :
    ((entrySegments sec content).map PatentSegment.id).Nodup := by
  rcases content with s2 | n | b | items | d | _ <;>
    simp only [entrySegments]
  case str =>
    by_cases ht : stripTruthy s2 = true
    · rw [if_pos ht]
      simp
    · rw [if_neg ht]
      simp
  case list => exact listSegments_ids_nodup sec items 0 (markerFree_elim items hm)
  all_goals simp


/-- C5 (amended): segment ids are derived from an embedded 4-digit
marker when present, otherwise synthesized from the section name and
ordinal; they are pairwise distinct whenever no paragraph carries an
embedded marker and the section names are distinct and underscore-free.
(As originally stated — unique for *every* document — the claim fails:
two paragraphs embedding the same marker receive the same id.) -/
theorem segment_ids_unique (doc : PyValue)
    (entries : List (List Char × PyValue)) (fullText : List Char)
    (segs : List PatentSegment)
    (hdesc : pyGet doc ("description".data) (.dict []) = .ok (.dict entries))
    (hok : prepareDocumentEnhanced doc = .ok (fullText, segs))
    (hkeys : (entries.map Prod.fst).Nodup)
    (hus : ∀ e ∈ entries, ('_' : Char) ∉ e.1)
    (hmark : ∀ e ∈ entries, markerFreeContent e.2 = true) :
    (segs.map PatentSegment.id).Nodup := by
  have hsegs : segs = (entries.map (fun e => entrySegments e.1 e.2)).flatten := by
    unfold prepareDocumentEnhanced at hok
    simp only [bind, Except.bind, hdesc] at hok
    injection hok with hok
    rw [Prod.mk.injEq] at hok
    exact hok.2.symm
  subst hsegs
  rw [List.map_flatten, List.map_map, List.nodup_flatten]
  constructor
  · intro l hl
    obtain ⟨e, he, rfl⟩ := List.mem_map.mp hl
    exact entrySegments_nodup e.1 e.2 (hmark e he)
  · rw [List.pairwise_map]
    have hpw : entries.Pairwise (fun e1 e2 => e1.1 ≠ e2.1) :=
      List.pairwise_map.mp hkeys
    refine hpw.imp_of_mem ?_
    intro e1 e2 h1m h2m hne
    intro a ha hb
    obtain ⟨seg1, hs1, hid1⟩ := List.mem_map.mp ha
    obtain ⟨seg2, hs2, hid2⟩ := List.mem_map.mp hb
    have shape1 := entrySegments_id_shape e1.1 e1.2 (hmark e1 h1m) seg1 hs1
    have shape2 := entrySegments_id_shape e2.1 e2.2 (hmark e2 h2m) seg2 hs2
    have hida : seg1.id = seg2.id := by rw [hid1, hid2]
    rcases shape1 with hsh1 | ⟨i1, hsh1⟩ <;> rcases shape2 with hsh2 | ⟨i2, hsh2⟩
    · rw [hsh1, hsh2] at hida
      exact hne (synthStrId_inj _ _ hida)
    · rw [hsh1, hsh2] at hida
      exact synthStrId_ne_synthListId e1.1 e2.1 i2 (hus e1 h1m) hida
    · rw [hsh1, hsh2] at hida
      exact synthStrId_ne_synthListId e2.1 e1.1 i1 (hus e2 h2m) hida.symm
    · rw [hsh1, hsh2] at hida
      exact hne (synthListId_inj e1.1 e2.1 i1 i2 (hus e1 h1m) (hus e2 h2m) hida).1

def c5Doc : PyValue := .dict [("description".data, .dict
  [("sec".data, .list [.str "a[0001]b".data, .str "c[0001]d".data])])]

def c5DocFw : PyValue := .dict [("description".data, .dict
  [("sec".data, .list [.str "【０００１】a".data, .str "【０００１】b".data])])]

/-- Counterexample to C5 as stated: two paragraphs of the same section
both embed the marker `[0001]`, and segmentation assigns both segments
the id `[0001]` — the id sequence is not pairwise distinct.  The same
happens with the standard Japanese full-width marker form `【０００１】`
(whose digits Python's `\d` matches). -/
theorem segment_ids_unique_counterexample :
    ((prepareDocumentEnhanced c5Doc).map (fun r => r.2.map PatentSegment.id) =
      .ok ["[0001]".data, "[0001]".data] ∧
    ¬ (["[0001]".data, "[0001]".data] : List (List Char)).Nodup) ∧
    ((prepareDocumentEnhanced c5DocFw).map (fun r => r.2.map PatentSegment.id) =
      .ok ["[０００１]".data, "[０００１]".data] ∧
    ¬ (["[０００１]".data, "[０００１]".data] : List (List Char)).Nodup) := by
  exact ⟨⟨rfl, by decide⟩, ⟨rfl, by decide⟩⟩

def c5WitnessDoc : PyValue := .dict [("description".data, .dict
  [("background".data, .list [.str "hello".data, .str "world".data]),
   ("claims".data, .str "text".data)])]

def c5WitnessSegs : List PatentSegment :=
  [⟨"[background_0000]".data, "hello".data, "background".data, 0⟩,
   ⟨"[background_0001]".data, "world".data, "background".data, 1⟩,
   ⟨"[claims]".data, "text".data, "claims".data, 0⟩]

/-- Witness for the amended C5: a marker-free two-section document gets
the synthesized ids `[background_0000]`, `[background_0001]`, `[claims]`,
which are pairwise distinct. -/
theorem segment_ids_unique_witness :
    prepareDocumentEnhanced c5WitnessDoc =
      .ok ("[background_0000] hello\n[background_0001] world\n[claims] text".data,
        c5WitnessSegs) ∧
    (c5WitnessSegs.map PatentSegment.id).Nodup := by
  refine ⟨rfl, ?_⟩
  exact segment_ids_unique c5WitnessDoc _ _ c5WitnessSegs rfl rfl
    (by decide) (by decide) (by decide)

end PatentRag
